import Mathlib

/-! Ext-like filesystem browser (`ext_browser.cpp`): layout interpreter and navigation.

A shallow embedding of the class `ExtFilesystem` of `src/ext_browser.cpp`:
inode lookup, block-pointer resolution, content assembly, directory-entry
scanning, name lookup and the `change_directory` state machine.

Modelling conventions.

* A `char` is a natural number below 256; a buffer or a `std::string` is a list
  of them (`Bytes`).
* The class `Disk` comes from `disk.h`, which is not among the sources. It is a
  parameter: a total function from the `int` block number and the byte offset
  to the byte that `disk->read` stores at that offset of the 512-byte buffer.
* Integers are decoded little-endian; `unsigned int` and `int` are 32 bits wide,
  `size_t` is 64 bits wide. Unsigned subtraction wraps (`usub32`, `usub64`), the
  conversion of an unsigned value to `int` is two's complement (`toInt32`).
* `min` is not declared in `ext_browser.cpp` itself; it is read as the least of
  its two arguments.
* A run that reads outside a buffer, or overflows a signed `int`, has no
  meaning in C++: the embedding gives it the outcome `Outcome.undefined`.
  The only loop without a bound of its own (the scan of
  `get_directory_entries`) takes fuel; `Outcome.unfinished` is running out of it.
-/

namespace ExtBrowser

/-! ## Data model -/

/-- Bytes of a buffer or of a string, one list element per `char`. -/
abbrev Bytes := List Nat

/-- Source constant `BLOCK_SIZE` (line 12). -/
def BLOCK_SIZE : Nat := 512

/-- Source constant `SUPERBLOCK_LOCATION` (line 13). -/
def SUPERBLOCK_LOCATION : Int := 1

/-- Source constant `ROOT_INODE_NUMBER` (line 14). -/
def ROOT_INODE_NUMBER : Nat := 2

/-- Source constant `INODE_SIZE` (line 15). -/
def INODE_SIZE : Nat := 128

/-- Source constant `INODES_PER_BLOCK` (line 16). -/
def INODES_PER_BLOCK : Nat := BLOCK_SIZE / INODE_SIZE

/-- Source constant `DIRECT_BLOCKS` (line 17). -/
def DIRECT_BLOCKS : Nat := 12

/-- Result of running a piece of the program. -/
inductive Outcome (α : Type) where
  /-- The call returns this value. -/
  | done (a : α)
  /-- The run reads outside a buffer or overflows an `int`. -/
  | undefined
  /-- The fuel given to a loop ran out before the loop exited. -/
  | unfinished
  deriving DecidableEq, Repr

/-- Sequencing of outcomes: the second computation runs on the value of the first. -/
def Outcome.bind {α β : Type} (x : Outcome α) (f : α → Outcome β) : Outcome β :=
  match x with
  | .done a => f a
  | .undefined => .undefined
  | .unfinished => .unfinished

/-- The backing store: block number, then byte offset, to the byte read. -/
abbrev Disk := Int → Nat → Nat

/-- Conversion of an unsigned value to a 32-bit `int` (two's complement). -/
def toInt32 (n : Nat) : Int :=
  if n % 2 ^ 32 < 2 ^ 31 then ((n % 2 ^ 32 : Nat) : Int) else ((n % 2 ^ 32 : Nat) : Int) - 2 ^ 32

/-- Subtraction of two `unsigned int` values. -/
def usub32 (a b : Nat) : Nat := (a % 2 ^ 32 + 2 ^ 32 - b % 2 ^ 32) % 2 ^ 32

/-- Subtraction of two `size_t` values. -/
def usub64 (a b : Nat) : Nat := (a % 2 ^ 64 + 2 ^ 64 - b % 2 ^ 64) % 2 ^ 64

/-- The `char` at an index of a buffer (0 where the list has no element). -/
def byteAt (b : Bytes) (i : Nat) : Nat := b.getD i 0 % 256

/-- A 16-bit little-endian unsigned integer at an offset of a buffer. -/
def le16 (b : Bytes) (off : Nat) : Nat := byteAt b off + 256 * byteAt b (off + 1)

/-- A 32-bit little-endian unsigned integer at an offset of a buffer. -/
def le32 (b : Bytes) (off : Nat) : Nat :=
  byteAt b off + 256 * byteAt b (off + 1) + 65536 * byteAt b (off + 2)
    + 16777216 * byteAt b (off + 3)

/-- Method `read_block` (lines 67-69): the 512 bytes the disk stores into the buffer. -/
def read_block (disk : Disk) (block_num : Int) : Bytes :=
  (List.range BLOCK_SIZE).map (fun i => disk block_num i % 256)

/-- Struct `Superblock` (lines 21-29): 32 label bytes and six `int` fields. -/
structure Superblock where
  disk_label : Bytes
  block_size : Int
  blocks_count : Int
  inodes_count : Int
  inodes_per_group : Int
  first_inode_block : Int
  first_data_block : Int
  deriving DecidableEq, Repr

/-- Struct `Inode` (lines 32-48). -/
structure Inode where
  mode : Nat
  size : Nat
  blocks : Nat
  direct_blocks : List Nat
  indirect_block : Nat
  deriving DecidableEq, Repr

/-- Method `Inode::is_directory` (lines 40-42). -/
def Inode.is_directory (inode : Inode) : Bool := inode.mode &&& 0x4000 != 0

/-- Method `Inode::is_file` (lines 45-47). -/
def Inode.is_file (inode : Inode) : Bool := inode.mode &&& 0x8000 != 0

/-- Struct `DirEntry` (lines 51-57). Field `name` holds the `name_len` bytes copied
into the array `name[256]`; the terminator the code writes after them is implicit. -/
structure DirEntry where
  inode : Nat
  rec_len : Nat
  name_len : Nat
  file_type : Nat
  name : Bytes
  deriving DecidableEq, Repr

/-! ## Inode table reader -/

/-- The `memcpy(&superblock, superblock_data, sizeof(Superblock))` of the constructor
(line 179): the struct has no padding, its fields lie at offsets 0, 32, 36, ..., 52. -/
def decode_superblock (block : Bytes) : Superblock :=
  { disk_label := (List.range 32).map (byteAt block)
    block_size := toInt32 (le32 block 32)
    blocks_count := toInt32 (le32 block 36)
    inodes_count := toInt32 (le32 block 40)
    inodes_per_group := toInt32 (le32 block 44)
    first_inode_block := toInt32 (le32 block 48)
    first_data_block := toInt32 (le32 block 52) }

/-- The `memcpy(&inode, block + offset, sizeof(Inode))` of `get_inode` (line 85).
`struct Inode` is not packed: its `unsigned int` members are 4-byte aligned, so
two padding bytes follow `mode`, and the members lie at offsets 0, 4, 8,
12 + 4i and 60 of the 64 bytes copied. -/
def decode_inode (block : Bytes) (offset : Nat) : Inode :=
  { mode := le16 block offset
    size := le32 block (offset + 4)
    blocks := le32 block (offset + 8)
    direct_blocks := (List.range DIRECT_BLOCKS).map (fun i => le32 block (offset + 12 + 4 * i))
    indirect_block := le32 block (offset + 60) }

/-- The local `inode_index` of `get_inode` (line 76). -/
def inode_index (inode_number : Int) : Int := inode_number - 1

/-- The local `block_num` of `get_inode` (line 77); `/` on `int` truncates toward zero. -/
def inode_block_num (superblock : Superblock) (inode_number : Int) : Int :=
  superblock.first_inode_block + Int.tdiv (inode_index inode_number) (INODES_PER_BLOCK : Int)

/-- The local `offset` of `get_inode` (line 78); `%` on `int` takes the sign of the
dividend. -/
def inode_offset (inode_number : Int) : Int :=
  Int.tmod (inode_index inode_number) (INODES_PER_BLOCK : Int) * (INODE_SIZE : Int)

/-- Method `get_inode` (lines 72-88). There is no test of `inode_number`. The
subtraction and the addition overflow outside the range of `int`; for a negative
`offset` the copy starts before the buffer `block`. -/
def get_inode (disk : Disk) (superblock : Superblock) (inode_number : Int) : Outcome Inode :=
  if inode_index inode_number < -(2 ^ 31) then .undefined
  else if inode_block_num superblock inode_number < -(2 ^ 31)
      ∨ 2 ^ 31 ≤ inode_block_num superblock inode_number then .undefined
  else if inode_offset inode_number < 0 then .undefined
  else .done (decode_inode (read_block disk (inode_block_num superblock inode_number))
    (inode_offset inode_number).toNat)

/-! ## Block-pointer resolution and content assembly -/

/-- The loop over the direct blocks of `read_file_contents` (lines 96-102), from
index `i` with `contents` accumulated so far. The loop runs while
`i < DIRECT_BLOCKS`, so `DIRECT_BLOCKS` units of fuel from `i = 0` never run out. -/
def direct_loop (disk : Disk) (inode : Inode) : Nat → Nat → Bytes → Bytes
  | 0, _, contents => contents
  | fuel + 1, i, contents =>
    if i < DIRECT_BLOCKS ∧ i * BLOCK_SIZE < inode.size then
      if inode.direct_blocks.getD i 0 = 0 then contents
      else
        let block := read_block disk (toInt32 (inode.direct_blocks.getD i 0))
        let bytes_to_read := min BLOCK_SIZE (usub32 inode.size (i * BLOCK_SIZE))
        direct_loop disk inode fuel (i + 1) (contents ++ block.take bytes_to_read)
    else contents

/-- The loop over the entries of the indirect block (lines 113-119).
`indirect_blocks_count = BLOCK_SIZE / sizeof(unsigned int) = 128`, so 128 units
of fuel from `i = 0` never run out. -/
def indirect_loop (disk : Disk) (inode : Inode) (indirect_block : Bytes) (blocks_needed : Int) :
    Nat → Nat → Bytes → Bytes
  | 0, _, contents => contents
  | fuel + 1, i, contents =>
    if (i : Int) < blocks_needed ∧ i < BLOCK_SIZE / 4 then
      if le32 indirect_block (4 * i) = 0 then contents
      else
        let block := read_block disk (toInt32 (le32 indirect_block (4 * i)))
        let bytes_to_read := min BLOCK_SIZE (usub64 inode.size contents.length)
        indirect_loop disk inode indirect_block blocks_needed fuel (i + 1)
          (contents ++ block.take bytes_to_read)
    else contents

/-- Method `read_file_contents` (lines 91-123). -/
def read_file_contents (disk : Disk) (inode : Inode) : Bytes :=
  let contents := direct_loop disk inode DIRECT_BLOCKS 0 []
  if inode.indirect_block ≠ 0 ∧ contents.length < inode.size then
    let indirect_block := read_block disk (toInt32 inode.indirect_block)
    let blocks_needed :=
      toInt32 ((usub64 inode.size contents.length + BLOCK_SIZE - 1) % 2 ^ 64 / BLOCK_SIZE)
    indirect_loop disk inode indirect_block blocks_needed (BLOCK_SIZE / 4) 0 contents
  else contents

/-! ## Directory entries -/

/-- The array `dir_contents.c_str()` points to: the content and the terminator. -/
def c_str (s : Bytes) : Bytes := s ++ [0]

/-- The value of a `char` array read as a C string: the bytes before the first zero. -/
def c_string (a : Bytes) : Bytes := a.takeWhile (fun c => c != 0)

/-- One pass of the loop body of `get_directory_entries` over the record at `pos`
(lines 138-144): five `memcpy` from the array `data` (of `data.length` chars).
`none` when a copy would read past the end of the array. -/
def decode_entry (data : Bytes) (pos : Nat) : Option DirEntry :=
  if pos + 8 ≤ data.length then
    let name_len := byteAt data (pos + 6)
    if pos + 8 + name_len ≤ data.length then
      some { inode := le32 data pos
             rec_len := le16 data (pos + 4)
             name_len := name_len
             file_type := byteAt data (pos + 7)
             name := ((data.drop (pos + 8)).take name_len).map (fun c => c % 256) }
    else none
  else none

/-- The loop `while (pos < dir_inode.size)` of `get_directory_entries`
(lines 137-151) from `pos` with `entries` collected so far. A pass that decodes a
record has `pos` inside the array, of at most 71681 chars
(`read_file_contents_length_cap`), and adds less than 65536 to it: the `int pos`
does not overflow. -/
def scan_entries (data : Bytes) (size : Nat) : Nat → Nat → List DirEntry → Outcome (List DirEntry)
  | 0, pos, entries => if pos < size then .unfinished else .done entries
  | fuel + 1, pos, entries =>
    if pos < size then
      match decode_entry data pos with
      | none => .undefined
      | some entry =>
        scan_entries data size fuel (pos + entry.rec_len)
          (if entry.inode ≠ 0 then entries ++ [entry] else entries)
    else .done entries

/-- Method `get_directory_entries` (lines 126-154) with the fuel of its loop explicit. -/
def get_directory_entries_fuel (fuel : Nat) (disk : Disk) (dir_inode : Inode) :
    Outcome (List DirEntry) :=
  if !dir_inode.is_directory then .done []
  else scan_entries (c_str (read_file_contents disk dir_inode)) dir_inode.size fuel 0 []

/-- Method `get_directory_entries` (lines 126-154). A scan that exits advances by at
least one byte per pass, so `dir_inode.size` passes are enough for it
(`scan_entries_fuel_enough` below). -/
def get_directory_entries (disk : Disk) (dir_inode : Inode) : Outcome (List DirEntry) :=
  get_directory_entries_fuel dir_inode.size disk dir_inode

/-- The entry `empty_entry` of `find_entry_by_name` (lines 166-168): only `inode` is
assigned; the other members are left uninitialised and stand here as 0. -/
def empty_entry : DirEntry :=
  { inode := 0, rec_len := 0, name_len := 0, file_type := 0, name := [] }

/-- The comparison `name == entry.name` (line 161) of a `std::string` with the
C string held in the array `entry.name`. -/
def name_eq (name : Bytes) (entry : DirEntry) : Bool := name == c_string entry.name

/-- The loop of `find_entry_by_name` (lines 160-168). -/
def find_loop (name : Bytes) : List DirEntry → DirEntry
  | [] => empty_entry
  | entry :: rest => if name_eq name entry then entry else find_loop name rest

/-- Method `find_entry_by_name` (lines 157-169). -/
def find_entry_by_name (disk : Disk) (dir_inode : Inode) (name : Bytes) : Outcome DirEntry :=
  (get_directory_entries disk dir_inode).bind fun entries => .done (find_loop name entries)

/-! ## Navigation -/

/-- The members of class `ExtFilesystem` (lines 61-64). -/
structure ExtFilesystem where
  disk : Disk
  superblock : Superblock
  current_dir_inode : Nat
  current_path : List Bytes

/-- The string `"/"`. -/
def slash : Bytes := [47]

/-- The string `"."`. -/
def dot : Bytes := [46]

/-- The string `".."`. -/
def dotdot : Bytes := [46, 46]

/-- Constructor `ExtFilesystem::ExtFilesystem` (lines 172-184). -/
def ExtFilesystem.init (disk : Disk) : ExtFilesystem :=
  { disk := disk
    superblock := decode_superblock (read_block disk SUPERBLOCK_LOCATION)
    current_dir_inode := ROOT_INODE_NUMBER
    current_path := [slash] }

/-- The loop `for (size_t i = 1; i < current_path.size(); i++)` of `change_directory`
(lines 239-243) over the components still to visit, from the inode `cur`. -/
def replay_path (disk : Disk) (superblock : Superblock) : List Bytes → Nat → Outcome Nat
  | [], cur => .done cur
  | component :: rest, cur =>
    (get_inode disk superblock (toInt32 cur)).bind fun dir_inode =>
    (find_entry_by_name disk dir_inode component).bind fun entry =>
    replay_path disk superblock rest entry.inode

/-- Method `change_directory` (lines 230-269): the returned flag and the members
after the call. -/
def change_directory (fs : ExtFilesystem) (dir_name : Bytes) : Outcome (Bool × ExtFilesystem) :=
  if dir_name = dotdot then
    if fs.current_path.length > 1 then
      (replay_path fs.disk fs.superblock (fs.current_path.dropLast.drop 1) ROOT_INODE_NUMBER).bind
        fun cur => .done (true, { fs with current_path := fs.current_path.dropLast
                                          current_dir_inode := cur })
    else .done (false, fs)
  else if dir_name = dot then .done (true, fs)
  else
    (get_inode fs.disk fs.superblock (toInt32 fs.current_dir_inode)).bind fun dir_inode =>
    (find_entry_by_name fs.disk dir_inode dir_name).bind fun entry =>
    if entry.inode ≠ 0 then
      (get_inode fs.disk fs.superblock (toInt32 entry.inode)).bind fun target_inode =>
      if target_inode.is_directory then
        .done (true, { fs with current_dir_inode := entry.inode
                               current_path := fs.current_path ++ [dir_name] })
      else .done (false, fs)
    else .done (false, fs)

/-- States of the navigator reachable on the image `disk`: the state the constructor
leaves, and every state a returning call of `change_directory` leaves. -/
inductive Reachable (disk : Disk) : ExtFilesystem → Prop where
  | init : Reachable disk (ExtFilesystem.init disk)
  | step {fs fs1 : ExtFilesystem} (dir_name : Bytes) (ok : Bool) :
      Reachable disk fs → change_directory fs dir_name = .done (ok, fs1) → Reachable disk fs1

/-! ## Output of the navigator and the disk label -/

/-- The char written by `endl`. -/
def endl : Bytes := [10]

/-- The loop of `print_working_directory` (lines 295-299) over the components. -/
def print_components : List Bytes → Bytes
  | [] => []
  | dir :: rest => (if dir ≠ slash then slash ++ dir else []) ++ print_components rest

/-- Method `print_working_directory` (lines 291-302): the chars written to `cout`. -/
def print_working_directory (fs : ExtFilesystem) : Bytes :=
  if fs.current_path.length = 1 then slash ++ endl
  else print_components fs.current_path ++ endl

/-- The line written to `cout` by line 266 of `change_directory`:
`Error: '<dir_name>' is not a directory or doesn't exist.` and `endl`. -/
def error_message (dir_name : Bytes) : Bytes :=
  [69, 114, 114, 111, 114, 58, 32, 39] ++ dir_name
    ++ [39, 32, 105, 115, 32, 110, 111, 116, 32, 97, 32, 100, 105, 114, 101, 99, 116, 111, 114,
        121, 32, 111, 114, 32, 100, 111, 101, 115, 110, 39, 116, 32, 101, 120, 105, 115, 116, 46]
    ++ endl

/-- Method `change_directory` (lines 230-269): the chars the call writes to `cout`.
Only the failed descent writes (line 266). -/
def change_directory_output (fs : ExtFilesystem) (dir_name : Bytes) : Outcome Bytes :=
  if dir_name = dotdot then
    if fs.current_path.length > 1 then
      (replay_path fs.disk fs.superblock (fs.current_path.dropLast.drop 1) ROOT_INODE_NUMBER).bind
        fun _ => .done []
    else .done []
  else if dir_name = dot then .done []
  else
    (get_inode fs.disk fs.superblock (toInt32 fs.current_dir_inode)).bind fun dir_inode =>
    (find_entry_by_name fs.disk dir_inode dir_name).bind fun entry =>
    if entry.inode ≠ 0 then
      (get_inode fs.disk fs.superblock (toInt32 entry.inode)).bind fun target_inode =>
      if target_inode.is_directory then .done []
      else .done (error_message dir_name)
    else .done (error_message dir_name)

/-- The four bytes of an `int` in memory, little-endian. -/
def i32le (x : Int) : Bytes :=
  [(x % 2 ^ 32).toNat % 256, (x % 2 ^ 32).toNat / 256 % 256, (x % 2 ^ 32).toNat / 65536 % 256,
   (x % 2 ^ 32).toNat / 16777216 % 256]

/-- The 56 bytes of the member `superblock` in memory: the array `disk_label` and the
six `int` members that follow it without padding. -/
def superblock_bytes (sb : Superblock) : Bytes :=
  sb.disk_label ++ i32le sb.block_size ++ i32le sb.blocks_count ++ i32le sb.inodes_count
    ++ i32le sb.inodes_per_group ++ i32le sb.first_inode_block ++ i32le sb.first_data_block

/-- Method `get_disk_label` (lines 191-193). `string(const char*)` copies the chars
from `disk_label[0]` up to the first zero char; nothing bounds the scan by the 32
chars of the array, so without a zero among them it runs on through the `int`
members that follow in the struct. A scan that finds no zero in the 56 bytes of the
struct leaves it. -/
def get_disk_label (fs : ExtFilesystem) : Outcome Bytes :=
  if (superblock_bytes fs.superblock).all (fun c => c != 0) then .undefined
  else .done (c_string (superblock_bytes fs.superblock))

/-! ## Block resolution, records and inode layout in the words of the specification -/

/-- The direct phase of the resolved sequence: `direct_blocks[i]` for `i = 0, 1, ...`
taken while `i < 12`, `i * 512 < size` and the entry is nonzero. -/
def resolved_direct (inode : Inode) : List Nat :=
  ((List.range 12).takeWhile
    (fun i => decide (i * 512 < inode.size) && inode.direct_blocks.getD i 0 != 0)).map
    (fun i => inode.direct_blocks.getD i 0)

/-- Entry `j` of the indirect block of an inode. -/
def indirect_entry (disk : Disk) (inode : Inode) (j : Nat) : Nat :=
  le32 (read_block disk (toInt32 inode.indirect_block)) (4 * j)

/-- The indirect phase of the resolved sequence: when bytes still remain after the
direct phase and `indirect_block != 0`, the entries of the indirect block in array
order, taken while fewer than `ceil(remaining_bytes / 512)` have been taken, the index
is below 128 and the entry is nonzero. -/
def resolved_indirect (disk : Disk) (inode : Inode) : List Nat :=
  if 0 < inode.size - 512 * (resolved_direct inode).length ∧ inode.indirect_block ≠ 0 then
    ((List.range 128).takeWhile
      (fun j => decide (j < (inode.size - 512 * (resolved_direct inode).length + 511) / 512)
        && indirect_entry disk inode j != 0)).map (indirect_entry disk inode)
  else []

/-- The resolved sequence of block numbers of an inode. -/
def resolved_blocks (disk : Disk) (inode : Inode) : List Nat :=
  resolved_direct inode ++ resolved_indirect disk inode

/-- The concatenation of the blocks of a sequence of block numbers. -/
def concat_blocks (disk : Disk) (blocks : List Nat) : Bytes :=
  (blocks.map (fun b => read_block disk (toInt32 b))).flatten

/-- A directory record decoded at offset `pos` of the content: `inode` = 4 bytes at +0,
`rec_len` = 2 bytes at +4, `name_len` = 1 byte at +6, `file_type` = 1 byte at +7,
`name` = the `name_len` bytes at +8, integers little-endian. -/
def spec_record (content : Bytes) (pos : Nat) : DirEntry :=
  { inode := le32 content pos
    rec_len := le16 content (pos + 4)
    name_len := byteAt content (pos + 6)
    file_type := byteAt content (pos + 7)
    name := (List.range (byteAt content (pos + 6))).map (fun k => byteAt content (pos + 8 + k)) }

/-- The offsets `0, r0, r0 + r1, ...` of the records of a directory: each offset is
the previous one advanced by the `rec_len` found there, up to the first offset that
is not below `size`. -/
def spec_offsets (content : Bytes) (size : Nat) : Nat → Nat → List Nat
  | 0, _ => []
  | fuel + 1, pos =>
    if pos < size then pos :: spec_offsets content size fuel (pos + le16 content (pos + 4))
    else []

/-- An inode record decoded from the packed layout: `mode` at bytes 0-1, `size` at
2-5, `blocks` at 6-9, `direct_blocks[i]` at `10 + 4i .. 13 + 4i`, `indirect_block` at
58-61. -/
def packed_inode (block : Bytes) (offset : Nat) : Inode :=
  { mode := le16 block offset
    size := le32 block (offset + 2)
    blocks := le32 block (offset + 6)
    direct_blocks := (List.range 12).map (fun i => le32 block (offset + 10 + 4 * i))
    indirect_block := le32 block (offset + 58) }

/-! ## Well-formed directory content, in the words of the specification -/

/-- The records the scan visits from `pos`: at offsets `pos`, `pos + rec_len`, ...
below `size`, each decoded as the loop body decodes it, skipped ones included. -/
def scanned_records (data : Bytes) (size : Nat) : Nat → Nat → List DirEntry
  | 0, _ => []
  | fuel + 1, pos =>
    if pos < size then
      match decode_entry data pos with
      | none => []
      | some entry => entry :: scanned_records data size fuel (pos + entry.rec_len)
    else []

/-- Well-formed content from `pos` on: every scanned record has `rec_len >= 1` and lies
inside the first `size` bytes (its header and name as well as its `rec_len` bytes),
and the last record ends exactly at `size`. -/
def well_formed_records (data : Bytes) (size : Nat) : Nat → Nat → Bool
  | 0, pos => pos == size
  | fuel + 1, pos =>
    if pos < size then
      match decode_entry data pos with
      | none => false
      | some entry =>
        decide (1 ≤ entry.rec_len) && decide (pos + 8 + entry.name_len ≤ size)
          && decide (pos + entry.rec_len ≤ size)
          && well_formed_records data size fuel (pos + entry.rec_len)
    else pos == size

/-- A directory inode whose content has the declared length and is well-formed. -/
def well_formed_directory (disk : Disk) (dir_inode : Inode) : Bool :=
  dir_inode.is_directory
    && (read_file_contents disk dir_inode).length == dir_inode.size
    && well_formed_records (c_str (read_file_contents disk dir_inode)) dir_inode.size
        dir_inode.size 0

/-! ## Sample images

Concrete inputs on which the statements below are evaluated. -/

/-- Encoding of a 16-bit value, little-endian. -/
def u16le (n : Nat) : Bytes := [n % 256, n / 256 % 256]

/-- Encoding of a 32-bit value, little-endian. -/
def u32le (n : Nat) : Bytes := [n % 256, n / 256 % 256, n / 65536 % 256, n / 16777216 % 256]

/-- An image given by the bytes of some of its blocks; every other byte is 0. -/
def disk_of_blocks (blocks : List (Int × Bytes)) : Disk := fun b i =>
  match blocks.lookup b with
  | some bytes => bytes.getD i 0
  | none => 0

/-- The 128 bytes of an inode record as the compiler lays `struct Inode` out. -/
def inode_record (mode size blocks : Nat) (direct : List Nat) (indirect : Nat) : Bytes :=
  u16le mode ++ [0, 0] ++ u32le size ++ u32le blocks
    ++ ((List.range 12).map (fun i => u32le (direct.getD i 0))).flatten ++ u32le indirect
    ++ List.replicate 64 0

/-- The bytes of a directory record of length `rec_len`. -/
def dir_record (inode rec_len file_type : Nat) (name : Bytes) : Bytes :=
  (u32le inode ++ u16le rec_len ++ [name.length, file_type] ++ name
    ++ List.replicate rec_len 0).take rec_len

/-- The string `"bin"`. -/
def name_bin : Bytes := [98, 105, 110]

/-- The string `"readme.txt"`. -/
def name_readme : Bytes := [114, 101, 97, 100, 109, 101, 46, 116, 120, 116]

/-- The string `"ls"`. -/
def name_ls : Bytes := [108, 115]

/-- The string `"nofile"`. -/
def name_nofile : Bytes := [110, 111, 102, 105, 108, 101]

/-- The image of the scenario of the specification: the root directory (inode 2)
holds `bin` (directory, inode 5) and `readme.txt` (file, inode 7, 10 bytes); `bin`
holds `ls` (file, inode 8) and one deleted slot. The inode table starts at block 2. -/
def sample_disk : Disk :=
  disk_of_blocks
    [ (1, List.replicate 32 0 ++ u32le 512 ++ u32le 64 ++ u32le 16 ++ u32le 16 ++ u32le 2
            ++ u32le 10),
      (2, List.replicate 128 0 ++ inode_record 0x41ED 512 1 [10] 0),
      (3, inode_record 0x41ED 512 1 [11] 0 ++ List.replicate 128 0
            ++ inode_record 0x81A4 10 1 [12] 0 ++ inode_record 0x81A4 4 1 [13] 0),
      (10, dir_record 5 12 2 name_bin ++ dir_record 7 500 1 name_readme),
      (11, dir_record 8 12 1 name_ls ++ dir_record 0 500 0 []),
      (12, [48, 49, 50, 51, 52, 53, 54, 55, 56, 57]),
      (13, [127, 69, 76, 70]) ]

/-- The root inode (number 2) of `sample_disk`. -/
def sample_root : Inode :=
  { mode := 0x41ED, size := 512, blocks := 1
    direct_blocks := [10, 0, 0, 0, 0, 0, 0, 0, 0, 0, 0, 0], indirect_block := 0 }

/-- The inode of `bin` (number 5) of `sample_disk`. -/
def sample_bin : Inode :=
  { mode := 0x41ED, size := 512, blocks := 1
    direct_blocks := [11, 0, 0, 0, 0, 0, 0, 0, 0, 0, 0, 0], indirect_block := 0 }

/-- The inode of `readme.txt` (number 7) of `sample_disk`. -/
def sample_readme : Inode :=
  { mode := 0x81A4, size := 10, blocks := 1
    direct_blocks := [12, 0, 0, 0, 0, 0, 0, 0, 0, 0, 0, 0], indirect_block := 0 }

/-- The entry of `bin` in the root directory of `sample_disk`. -/
def entry_bin : DirEntry :=
  { inode := 5, rec_len := 12, name_len := 3, file_type := 2, name := name_bin }

/-- The entry of `readme.txt` in the root directory of `sample_disk`. -/
def entry_readme : DirEntry :=
  { inode := 7, rec_len := 500, name_len := 10, file_type := 1, name := name_readme }

/-- The entry of `ls` in the directory `bin` of `sample_disk`. -/
def entry_ls : DirEntry :=
  { inode := 8, rec_len := 12, name_len := 2, file_type := 1, name := name_ls }

/-- An image with two odd directories: block 10 starts with a record whose `rec_len`
is 0; block 11 holds one record whose 3-byte name is `a`, a zero byte, `b`. -/
def odd_disk : Disk :=
  disk_of_blocks
    [ (10, u32le 5 ++ u16le 0 ++ [3, 2] ++ name_bin),
      (11, dir_record 9 512 1 [97, 0, 98]) ]

/-- The navigator on the sample image after a descent from the root into `bin`. -/
def sample_fs_bin : ExtFilesystem :=
  { ExtFilesystem.init sample_disk with
    current_dir_inode := entry_bin.inode
    current_path := (ExtFilesystem.init sample_disk).current_path ++ [name_bin] }

/-- A directory inode of 512 bytes whose content is block 10. -/
def dir_block10 : Inode :=
  { mode := 0x41ED, size := 512, blocks := 1
    direct_blocks := [10, 0, 0, 0, 0, 0, 0, 0, 0, 0, 0, 0], indirect_block := 0 }

/-- A directory inode of 512 bytes whose content is block 11. -/
def dir_block11 : Inode :=
  { mode := 0x41ED, size := 512, blocks := 1
    direct_blocks := [11, 0, 0, 0, 0, 0, 0, 0, 0, 0, 0, 0], indirect_block := 0 }

/-- An image whose every byte is 1: every block pointer read from it is nonzero. -/
def ones_disk : Disk := fun _ _ => 1

/-- An inode of `size` bytes whose twelve direct pointers are `direct`. -/
def file_inode (size : Nat) (direct : List Nat) (indirect : Nat) : Inode :=
  { mode := 0x81A4, size := size, blocks := 0, direct_blocks := direct, indirect_block := indirect }

/-- Twelve nonzero direct pointers. -/
def twelve_blocks : List Nat := [20, 21, 22, 23, 24, 25, 26, 27, 28, 29, 30, 31]

/-- An image whose root directory (inode 2) holds one entry, named `/`, of the empty
directory of inode 5. -/
def slash_disk : Disk :=
  disk_of_blocks
    [ (1, List.replicate 32 0 ++ u32le 512 ++ u32le 64 ++ u32le 16 ++ u32le 16 ++ u32le 2
            ++ u32le 10),
      (2, List.replicate 128 0 ++ inode_record 0x41ED 512 1 [10] 0),
      (3, inode_record 0x41ED 512 1 [11] 0),
      (10, dir_record 5 512 2 slash),
      (11, dir_record 0 512 0 []) ]

/-- The navigator on `slash_disk` after a descent from the root into the entry `/`. -/
def slash_fs : ExtFilesystem :=
  { ExtFilesystem.init slash_disk with
    current_dir_inode := 5
    current_path := [slash, slash] }

/-- The string `"abcdefgh"`. -/
def name_abcdefgh : Bytes := [97, 98, 99, 100, 101, 102, 103, 104]

/-- An image with two 16-byte directory records whose `name_len` passes the end of a
16-byte content: in block 10 by one byte (`name_len` = 9), in block 11 by two
(`name_len` = 10). -/
def overrun_disk : Disk :=
  disk_of_blocks
    [ (10, u32le 9 ++ u16le 16 ++ [9, 1] ++ name_abcdefgh),
      (11, u32le 9 ++ u16le 16 ++ [10, 1] ++ name_abcdefgh) ]

/-- A directory inode of 16 bytes whose content is the start of block 10. -/
def dir16_block10 : Inode :=
  { mode := 0x41ED, size := 16, blocks := 1
    direct_blocks := [10, 0, 0, 0, 0, 0, 0, 0, 0, 0, 0, 0], indirect_block := 0 }

/-- A directory inode of 16 bytes whose content is the start of block 11. -/
def dir16_block11 : Inode :=
  { mode := 0x41ED, size := 16, blocks := 1
    direct_blocks := [11, 0, 0, 0, 0, 0, 0, 0, 0, 0, 0, 0], indirect_block := 0 }

/-- An image whose superblock has a label of 32 chars `A`, none of them zero, and
the `block_size` field 513. -/
def label_disk : Disk :=
  disk_of_blocks
    [ (1, List.replicate 32 65 ++ u32le 513 ++ u32le 64 ++ u32le 16 ++ u32le 16 ++ u32le 2
            ++ u32le 10) ]

/-- The string `"x"`. -/
def name_x : Bytes := [120]

/-- The string `"y"`. -/
def name_y : Bytes := [121]

/-- An image with repeated names. The root directory (inode 2) holds two entries named
`x`: first the directory of inode 5, then the file of inode 7. The directory of inode 5
holds two entries named `y`: first the file of inode 7, then the directory of inode 6.
Block 14 holds a directory with the entry of inode 9, whose 3-byte name is `a`, a zero
byte, `b`, followed by the entry of inode 10, named `a`. -/
def dup_disk : Disk :=
  disk_of_blocks
    [ (1, List.replicate 32 0 ++ u32le 512 ++ u32le 64 ++ u32le 16 ++ u32le 16 ++ u32le 2
            ++ u32le 10),
      (2, List.replicate 128 0 ++ inode_record 0x41ED 512 1 [10] 0),
      (3, inode_record 0x41ED 512 1 [11] 0 ++ inode_record 0x41ED 512 1 [13] 0
            ++ inode_record 0x81A4 4 1 [12] 0),
      (10, dir_record 5 12 2 name_x ++ dir_record 7 500 1 name_x),
      (11, dir_record 7 12 1 name_y ++ dir_record 6 500 2 name_y),
      (12, [127, 69, 76, 70]),
      (13, dir_record 0 512 0 []),
      (14, dir_record 9 12 1 [97, 0, 98] ++ dir_record 10 500 1 [97]) ]

/-- The inode of the directory of number 5 of `dup_disk`. -/
def dup_dir5 : Inode :=
  { mode := 0x41ED, size := 512, blocks := 1
    direct_blocks := [11, 0, 0, 0, 0, 0, 0, 0, 0, 0, 0, 0], indirect_block := 0 }

/-- The inode of the directory of number 6 of `dup_disk`. -/
def dup_dir6 : Inode :=
  { mode := 0x41ED, size := 512, blocks := 1
    direct_blocks := [13, 0, 0, 0, 0, 0, 0, 0, 0, 0, 0, 0], indirect_block := 0 }

/-- The inode of the file of number 7 of `dup_disk`. -/
def dup_file7 : Inode :=
  { mode := 0x81A4, size := 4, blocks := 1
    direct_blocks := [12, 0, 0, 0, 0, 0, 0, 0, 0, 0, 0, 0], indirect_block := 0 }

/-- The first entry named `x` of the root of `dup_disk`: a directory. -/
def entry_x_dir : DirEntry :=
  { inode := 5, rec_len := 12, name_len := 1, file_type := 2, name := name_x }

/-- The second entry named `x` of the root of `dup_disk`: a file. -/
def entry_x_file : DirEntry :=
  { inode := 7, rec_len := 500, name_len := 1, file_type := 1, name := name_x }

/-- The first entry named `y` of the directory of inode 5 of `dup_disk`: a file. -/
def entry_y_file : DirEntry :=
  { inode := 7, rec_len := 12, name_len := 1, file_type := 1, name := name_y }

/-- The second entry named `y` of the directory of inode 5 of `dup_disk`: a directory. -/
def entry_y_dir : DirEntry :=
  { inode := 6, rec_len := 500, name_len := 1, file_type := 2, name := name_y }

/-- The navigator on `dup_disk` after `change_directory("x")` from the root. -/
def dup_fs_x : ExtFilesystem :=
  { ExtFilesystem.init dup_disk with
    current_dir_inode := entry_x_dir.inode
    current_path := (ExtFilesystem.init dup_disk).current_path ++ [name_x] }

/-- A directory inode of 512 bytes whose content is block 14. -/
def dir_block14 : Inode :=
  { mode := 0x41ED, size := 512, blocks := 1
    direct_blocks := [14, 0, 0, 0, 0, 0, 0, 0, 0, 0, 0, 0], indirect_block := 0 }

/-- The entry of inode 9 of block 14 of `dup_disk`, named `a`, zero, `b`. -/
def entry_a0b : DirEntry :=
  { inode := 9, rec_len := 12, name_len := 3, file_type := 1, name := [97, 0, 98] }

/-- The entry of inode 10 of block 14 of `dup_disk`, named `a`. -/
def entry_a : DirEntry :=
  { inode := 10, rec_len := 500, name_len := 1, file_type := 1, name := [97] }

/-! ## Arithmetic of the machine integers -/

theorem usub32_of_le {a b : Nat} (hb : b ≤ a) (ha : a < 2 ^ 32) : usub32 a b = a - b := by
  unfold usub32
  omega

theorem usub64_of_le {a b : Nat} (hb : b ≤ a) (ha : a < 2 ^ 64) : usub64 a b = a - b := by
  unfold usub64
  omega

theorem toInt32_of_lt {n : Nat} (h : n < 2 ^ 31) : toInt32 n = (n : Int) := by
  unfold toInt32
  have h1 : n % 2 ^ 32 = n := Nat.mod_eq_of_lt (by omega)
  rw [h1, if_pos h]

theorem length_read_block (disk : Disk) (b : Int) : (read_block disk b).length = 512 := by
  simp [read_block, BLOCK_SIZE]

/-! ## Content assembly: length of the result -/

theorem direct_loop_length_le (disk : Disk) (inode : Inode) (hsz : inode.size < 2 ^ 32) :
    ∀ (fuel i : Nat) (c : Bytes), c.length ≤ i * 512 → c.length ≤ inode.size →
      (direct_loop disk inode fuel i c).length ≤ inode.size := by
  intro fuel
  induction fuel with
  | zero => intro i c _ h; simpa [direct_loop] using h
  | succ f ih =>
    intro i c h1 h2
    unfold direct_loop
    split
    · rename_i hc
      split
      · exact h2
      · simp only [BLOCK_SIZE] at hc ⊢
        have hs := usub32_of_le (Nat.le_of_lt hc.2) hsz
        apply ih
        · simp only [List.length_append, List.length_take, length_read_block]; omega
        · simp only [List.length_append, List.length_take, length_read_block]; omega
    · exact h2

theorem indirect_loop_length_le (disk : Disk) (inode : Inode) (hsz : inode.size < 2 ^ 32)
    (ib : Bytes) (bn : Int) :
    ∀ (fuel i : Nat) (c : Bytes), c.length ≤ inode.size →
      (indirect_loop disk inode ib bn fuel i c).length ≤ inode.size := by
  intro fuel
  induction fuel with
  | zero => intro i c h; simpa [indirect_loop] using h
  | succ f ih =>
    intro i c h
    unfold indirect_loop
    split
    · split
      · exact h
      · have hs := usub64_of_le h (by omega : inode.size < 2 ^ 64)
        apply ih
        simp only [BLOCK_SIZE, List.length_append, List.length_take, length_read_block]
        omega
    · exact h

theorem direct_loop_length_eq (disk : Disk) (inode : Inode) (hsz : inode.size < 2 ^ 32)
    (hdirect : ∀ i, i < min 12 ((inode.size + 511) / 512) → inode.direct_blocks.getD i 0 ≠ 0) :
    ∀ (fuel i : Nat) (c : Bytes), fuel + i = 12 → c.length = min (i * 512) inode.size →
      (direct_loop disk inode fuel i c).length = min (12 * 512) inode.size := by
  intro fuel
  induction fuel with
  | zero =>
    intro i c hi hc
    have : i = 12 := by omega
    subst this
    simpa [direct_loop] using hc
  | succ f ih =>
    intro i c hi hc
    unfold direct_loop
    split
    · rename_i hcond
      simp only [DIRECT_BLOCKS, BLOCK_SIZE] at hcond
      split
      · rename_i hz
        exact absurd hz (hdirect i (by omega))
      · have hs := usub32_of_le (Nat.le_of_lt hcond.2) hsz
        apply ih (i + 1) _ (by omega)
        simp only [BLOCK_SIZE, List.length_append, List.length_take, length_read_block]
        omega
    · rename_i hcond
      simp only [DIRECT_BLOCKS, BLOCK_SIZE] at hcond
      omega

theorem indirect_loop_length_eq (disk : Disk) (inode : Inode) (hsz : inode.size < 2 ^ 32)
    (ib : Bytes) (bn : Nat) (hbn : bn = (inode.size - 6144 + 511) / 512) (hcap : bn ≤ 128)
    (hgt : 6144 < inode.size) (hent : ∀ i, i < bn → le32 ib (4 * i) ≠ 0) :
    ∀ (fuel i : Nat) (c : Bytes), fuel + i = 128 →
      c.length = min (6144 + i * 512) inode.size →
      (indirect_loop disk inode ib (bn : Int) fuel i c).length = inode.size := by
  intro fuel
  induction fuel with
  | zero =>
    intro i c hi hc
    simp only [indirect_loop]
    omega
  | succ f ih =>
    intro i c hi hc
    unfold indirect_loop
    split
    · rename_i hcond
      simp only [BLOCK_SIZE] at hcond
      have hib : i < bn := by omega
      split
      · rename_i hz
        exact absurd hz (hent i hib)
      · have hlen : c.length ≤ inode.size := by omega
        have hs := usub64_of_le hlen (by omega : inode.size < 2 ^ 64)
        apply ih (i + 1) _ (by omega)
        simp only [BLOCK_SIZE, List.length_append, List.length_take, length_read_block]
        omega
    · rename_i hcond
      simp only [BLOCK_SIZE] at hcond
      omega

theorem direct_loop_length_cap (disk : Disk) (inode : Inode) :
    ∀ (fuel i : Nat) (c : Bytes),
      (direct_loop disk inode fuel i c).length ≤ c.length + 512 * fuel := by
  intro fuel
  induction fuel with
  | zero => intro i c; simp [direct_loop]
  | succ f ih =>
    intro i c
    unfold direct_loop
    split
    · split
      · omega
      · refine Nat.le_trans (ih _ _) ?_
        simp only [BLOCK_SIZE, List.length_append, List.length_take, length_read_block]
        omega
    · omega

theorem indirect_loop_length_cap (disk : Disk) (inode : Inode) (ib : Bytes) (bn : Int) :
    ∀ (fuel i : Nat) (c : Bytes),
      (indirect_loop disk inode ib bn fuel i c).length ≤ c.length + 512 * fuel := by
  intro fuel
  induction fuel with
  | zero => intro i c; simp [indirect_loop]
  | succ f ih =>
    intro i c
    unfold indirect_loop
    split
    · split
      · omega
      · refine Nat.le_trans (ih _ _) ?_
        simp only [BLOCK_SIZE, List.length_append, List.length_take, length_read_block]
        omega
    · omega

/-- Whatever the declared size, the content assembled has at most 12 + 128 blocks: the
offsets of a directory scan stay far inside the range of `int`. -/
theorem read_file_contents_length_cap (disk : Disk) (inode : Inode) :
    (read_file_contents disk inode).length ≤ (12 + 128) * 512 := by
  have hd := direct_loop_length_cap disk inode DIRECT_BLOCKS 0 []
  simp only [DIRECT_BLOCKS, List.length_nil] at hd
  unfold read_file_contents
  dsimp only
  split
  · refine Nat.le_trans (indirect_loop_length_cap disk inode _ _ _ _ _) ?_
    simp only [BLOCK_SIZE, DIRECT_BLOCKS]
    omega
  · simp only [DIRECT_BLOCKS]
    omega

/-- C1: when every pointer needed to cover `inode.size` bytes is nonzero (the direct
pointers below `min(12, ceil(size/512))` and, past 12 blocks, the indirect pointer
and the first `ceil(size/512) - 12` entries of the indirect block, at most 128 of
them), `read_file_contents` returns exactly `inode.size` bytes. -/
theorem read_file_contents_length_eq (disk : Disk) (inode : Inode)
    (hcap : (inode.size + 511) / 512 ≤ 12 + 128)
    (hdirect : ∀ i, i < min 12 ((inode.size + 511) / 512) → inode.direct_blocks.getD i 0 ≠ 0)
    (hindirect : 12 * 512 < inode.size → inode.indirect_block ≠ 0 ∧
      ∀ i, i < (inode.size + 511) / 512 - 12 →
        le32 (read_block disk (toInt32 inode.indirect_block)) (4 * i) ≠ 0) :
    (read_file_contents disk inode).length = inode.size := by
  have hsz : inode.size < 2 ^ 32 := by omega
  have hd := direct_loop_length_eq disk inode hsz hdirect DIRECT_BLOCKS 0 []
    (by simp [DIRECT_BLOCKS]) (by simp)
  unfold read_file_contents
  dsimp only
  split
  · rename_i hcond
    have hgt : 6144 < inode.size := by omega
    have hl : (direct_loop disk inode DIRECT_BLOCKS 0 []).length = 6144 := by omega
    have hs := usub64_of_le (Nat.le_of_lt hgt) (by omega : inode.size < 2 ^ 64)
    have hbn : toInt32 ((usub64 inode.size 6144 + BLOCK_SIZE - 1) % 2 ^ 64 / BLOCK_SIZE)
        = (((inode.size - 6144 + 511) / 512 : Nat) : Int) := by
      rw [hs]
      simp only [BLOCK_SIZE]
      have h1 : (inode.size - 6144 + 512 - 1) % 2 ^ 64 / 512 = (inode.size - 6144 + 511) / 512 := by
        omega
      rw [h1]
      exact toInt32_of_lt (by omega)
    rw [hl, hbn]
    have hi := hindirect (by omega)
    refine indirect_loop_length_eq disk inode hsz _ _ rfl (by omega) hgt ?_ _ 0 _
      (by simp [BLOCK_SIZE]) (by simp only [hl]; omega)
    intro i hib
    exact hi.2 i (by omega)
  · rename_i hcond
    by_cases hgt : 12 * 512 < inode.size
    · exact absurd ⟨(hindirect hgt).1, by omega⟩ hcond
    · omega

/-- C1 at the sizes 0, 100, 512, 6144, 6145 and 71680. -/
theorem read_file_contents_length_eq_witness :
    (read_file_contents ones_disk (file_inode 0 twelve_blocks 40)).length = 0
      ∧ (read_file_contents ones_disk (file_inode 100 twelve_blocks 40)).length = 100
      ∧ (read_file_contents ones_disk (file_inode 512 twelve_blocks 40)).length = 512
      ∧ (read_file_contents ones_disk (file_inode 6144 twelve_blocks 40)).length = 6144
      ∧ (read_file_contents ones_disk (file_inode 6145 twelve_blocks 40)).length = 6145
      ∧ (read_file_contents ones_disk (file_inode 71680 twelve_blocks 40)).length = 71680 :=
  ⟨read_file_contents_length_eq ones_disk (file_inode 0 twelve_blocks 40)
      (by decide) (by decide) (by decide!),
   read_file_contents_length_eq ones_disk (file_inode 100 twelve_blocks 40)
      (by decide) (by decide) (by decide!),
   read_file_contents_length_eq ones_disk (file_inode 512 twelve_blocks 40)
      (by decide) (by decide) (by decide!),
   read_file_contents_length_eq ones_disk (file_inode 6144 twelve_blocks 40)
      (by decide) (by decide) (by decide!),
   read_file_contents_length_eq ones_disk (file_inode 6145 twelve_blocks 40)
      (by decide) (by decide) (by decide!),
   read_file_contents_length_eq ones_disk (file_inode 71680 twelve_blocks 40)
      (by decide) (by decide) (by decide!)⟩

/-- C4: whatever the pointers and the image, `read_file_contents` returns at most
`inode.size` bytes, for every size an `unsigned int` can hold. -/
theorem read_file_contents_length_le (disk : Disk) (inode : Inode)
    (hsz : inode.size < 2 ^ 32) :
    (read_file_contents disk inode).length ≤ inode.size := by
  have hd := direct_loop_length_le disk inode hsz DIRECT_BLOCKS 0 [] (by simp) (by simp)
  unfold read_file_contents
  dsimp only
  split
  · exact indirect_loop_length_le disk inode hsz _ _ _ _ _ hd
  · exact hd

/-- C4 at an inode of declared size 700 whose second direct pointer is 0, and at one
of the largest size with every pointer set. -/
theorem read_file_contents_length_le_witness :
    (read_file_contents ones_disk (file_inode 700 [20, 0, 22] 0)).length ≤ 700
      ∧ (read_file_contents ones_disk (file_inode (2 ^ 32 - 1) twelve_blocks 40)).length
          ≤ 2 ^ 32 - 1 :=
  ⟨read_file_contents_length_le ones_disk (file_inode 700 [20, 0, 22] 0) (by decide),
   read_file_contents_length_le ones_disk (file_inode (2 ^ 32 - 1) twelve_blocks 40) (by decide)⟩

/-! ## The scan of a directory -/

theorem scan_entries_zero (data : Bytes) (size pos : Nat) (acc : List DirEntry) :
    scan_entries data size 0 pos acc = if pos < size then .unfinished else .done acc := rfl

theorem scan_entries_succ (data : Bytes) (size fuel pos : Nat) (acc : List DirEntry) :
    scan_entries data size (fuel + 1) pos acc =
      if pos < size then
        match decode_entry data pos with
        | none => .undefined
        | some entry =>
          scan_entries data size fuel (pos + entry.rec_len)
            (if entry.inode ≠ 0 then acc ++ [entry] else acc)
      else .done acc := rfl

theorem scan_entries_inode_ne_zero (data : Bytes) (size : Nat) :
    ∀ (fuel pos : Nat) (acc es : List DirEntry), scan_entries data size fuel pos acc = .done es →
      (∀ e ∈ acc, e.inode ≠ 0) → ∀ e ∈ es, e.inode ≠ 0 := by
  intro fuel
  induction fuel with
  | zero =>
    intro pos acc es h hacc
    rw [scan_entries_zero] at h
    split at h
    · exact absurd h (by simp)
    · cases h; exact hacc
  | succ f ih =>
    intro pos acc es h hacc
    rw [scan_entries_succ] at h
    split at h
    · cases hd : decode_entry data pos with
      | none => rw [hd] at h; exact absurd h (by simp)
      | some entry =>
        rw [hd] at h
        refine ih _ _ es h ?_
        split
        · rename_i hne
          intro e he
          rcases List.mem_append.1 he with h1 | h1
          · exact hacc e h1
          · rw [List.mem_singleton.1 h1]; exact hne
        · exact hacc
    · cases h; exact hacc

/-- A record of length 0 below `size` stalls the scan: no amount of fuel ends it. -/
theorem scan_entries_stalls (data : Bytes) (size pos : Nat) (entry : DirEntry)
    (hpos : pos < size) (hd : decode_entry data pos = some entry) (hz : entry.rec_len = 0) :
    ∀ (fuel : Nat) (acc : List DirEntry), scan_entries data size fuel pos acc = .unfinished := by
  intro fuel
  induction fuel with
  | zero => intro acc; rw [scan_entries_zero, if_pos hpos]
  | succ f ih =>
    intro acc
    rw [scan_entries_succ, if_pos hpos, hd]
    simp only [hz, Nat.add_zero]
    exact ih _

/-- More fuel does not change the outcome of a scan that did not run out of fuel. -/
theorem scan_entries_fuel_mono (data : Bytes) (size : Nat) :
    ∀ (fuel pos : Nat) (acc : List DirEntry), scan_entries data size fuel pos acc ≠ .unfinished →
      ∀ k, scan_entries data size (fuel + k) pos acc = scan_entries data size fuel pos acc := by
  intro fuel
  induction fuel with
  | zero =>
    intro pos acc h k
    rw [scan_entries_zero] at h
    split at h
    · exact absurd rfl h
    · rename_i hp
      cases k with
      | zero => rfl
      | succ k => rw [Nat.zero_add, scan_entries_succ, scan_entries_zero, if_neg hp, if_neg hp]
  | succ f ih =>
    intro pos acc h k
    rw [Nat.add_right_comm, scan_entries_succ, scan_entries_succ]
    rw [scan_entries_succ] at h
    split
    · rename_i hp
      rw [if_pos hp] at h
      cases hd : decode_entry data pos with
      | none => rfl
      | some entry =>
        rw [hd] at h
        exact ih _ _ h k
    · rfl

/-- A scan that exits does so within `size - pos` passes: that much fuel gives the
outcome of any larger amount. -/
theorem scan_entries_fuel_enough (data : Bytes) (size : Nat) :
    ∀ (fuel pos : Nat) (acc : List DirEntry), scan_entries data size fuel pos acc ≠ .unfinished →
      scan_entries data size (size - pos) pos acc = scan_entries data size fuel pos acc := by
  intro fuel
  induction fuel with
  | zero =>
    intro pos acc h
    rw [scan_entries_zero] at h ⊢
    split at h
    · exact absurd rfl h
    · rename_i hp
      have : size - pos = 0 := by omega
      rw [this, scan_entries_zero, if_neg hp]
  | succ f ih =>
    intro pos acc h
    rw [scan_entries_succ] at h ⊢
    by_cases hp : pos < size
    · rw [if_pos hp] at h ⊢
      obtain ⟨m, hm⟩ : ∃ m, size - pos = m + 1 := ⟨size - pos - 1, by omega⟩
      rw [hm, scan_entries_succ, if_pos hp]
      cases hd : decode_entry data pos with
      | none => rfl
      | some entry =>
        rw [hd] at h
        simp only at h ⊢
        by_cases hz : entry.rec_len = 0
        · rw [hz, Nat.add_zero] at h
          exact absurd (scan_entries_stalls data size pos entry hp hd hz f _) h
        · have h1 := ih _ _ h
          have h2 := scan_entries_fuel_mono data size _ _ _ (by rw [h1]; exact h)
            (m - (size - (pos + entry.rec_len)))
          have h3 : size - (pos + entry.rec_len) + (m - (size - (pos + entry.rec_len))) = m := by
            omega
          rw [h3] at h2
          rw [h2, h1]
    · rw [if_neg hp]
      have : size - pos = 0 := by omega
      rw [this, scan_entries_zero, if_neg hp]

/-- The fuel `get_directory_entries` gives its loop is enough: whenever some amount of
fuel lets the scan end, returning or reading out of bounds, `get_directory_entries` has
that outcome. -/
theorem get_directory_entries_fuel_enough (fuel : Nat) (disk : Disk) (dir_inode : Inode)
    (h : get_directory_entries_fuel fuel disk dir_inode ≠ .unfinished) :
    get_directory_entries disk dir_inode = get_directory_entries_fuel fuel disk dir_inode := by
  unfold get_directory_entries get_directory_entries_fuel at *
  split
  · rfl
  · rename_i hdir
    rw [if_neg hdir] at h
    exact scan_entries_fuel_enough _ _ fuel 0 [] h

theorem entries_inode_ne_zero (fuel : Nat) (disk : Disk) (dir_inode : Inode)
    (entries : List DirEntry)
    (h : get_directory_entries_fuel fuel disk dir_inode = .done entries) :
    ∀ e ∈ entries, e.inode ≠ 0 := by
  unfold get_directory_entries_fuel at h
  split at h
  · cases h; simp
  · exact scan_entries_inode_ne_zero _ _ _ _ _ _ h (by simp)

/-- C5: whenever `get_directory_entries` returns, with whatever fuel for its loop, no
returned entry has `inode == 0`: the records whose `inode` field is 0 are skipped. -/
theorem get_directory_entries_inode_ne_zero (fuel : Nat) (disk : Disk) (dir_inode : Inode)
    (entries : List DirEntry)
    (h : get_directory_entries_fuel fuel disk dir_inode = .done entries) :
    ∀ e ∈ entries, e.inode ≠ 0 :=
  entries_inode_ne_zero fuel disk dir_inode entries h

/-- C5 on the root directory of the sample image. -/
theorem get_directory_entries_inode_ne_zero_witness :
    get_directory_entries_fuel 512 sample_disk sample_root = .done [entry_bin, entry_readme]
      ∧ ∀ e ∈ [entry_bin, entry_readme], e.inode ≠ 0 :=
  ⟨by decide!,
   get_directory_entries_inode_ne_zero 512 sample_disk sample_root [entry_bin, entry_readme]
     (by decide!)⟩

theorem scan_entries_well_formed (data : Bytes) (size : Nat) :
    ∀ (fuel pos : Nat) (acc : List DirEntry), well_formed_records data size fuel pos = true →
      scan_entries data size fuel pos acc
          = .done (acc ++ (scanned_records data size fuel pos).filter (fun e => e.inode != 0))
        ∧ ((scanned_records data size fuel pos).map DirEntry.rec_len).sum + pos = size := by
  intro fuel
  induction fuel with
  | zero =>
    intro pos acc h
    simp only [well_formed_records, beq_iff_eq] at h
    simp [scan_entries, scanned_records, h]
  | succ f ih =>
    intro pos acc h
    unfold well_formed_records at h
    rw [scan_entries_succ]
    unfold scanned_records
    by_cases hp : pos < size
    · rw [if_pos hp] at h ⊢
      rw [if_pos hp]
      cases hd : decode_entry data pos with
      | none => rw [hd] at h; exact absurd h (by simp)
      | some entry =>
        rw [hd] at h
        simp only [Bool.and_eq_true, decide_eq_true_eq] at h
        obtain ⟨ih1, ih2⟩ := ih (pos + entry.rec_len)
          (if entry.inode ≠ 0 then acc ++ [entry] else acc) h.2
        simp only [ih1]
        refine ⟨?_, ?_⟩
        · by_cases hz : entry.inode = 0
          · simp [hz]
          · simp [hz]
        · simp only [List.map_cons, List.sum_cons]
          omega
    · rw [if_neg hp] at h ⊢
      rw [if_neg hp]
      simp only [beq_iff_eq] at h
      simp [h]

/-- C6, as amended: for a directory inode whose content is well-formed,
`get_directory_entries` returns the scanned records whose `inode` is not 0, and the
`rec_len` values of all scanned records, the skipped ones with `inode == 0` included,
sum exactly to `inode.size`; so the returned entries alone sum to `inode.size` when no
scanned record has `inode == 0`. -/
theorem get_directory_entries_rec_len_sum (disk : Disk) (dir_inode : Inode)
    (hwf : well_formed_directory disk dir_inode = true) :
    ∃ entries records,
      records = scanned_records (c_str (read_file_contents disk dir_inode)) dir_inode.size
          dir_inode.size 0
        ∧ get_directory_entries disk dir_inode = .done entries
        ∧ entries = records.filter (fun e => e.inode != 0)
        ∧ (records.map DirEntry.rec_len).sum = dir_inode.size
        ∧ ((∀ e ∈ records, e.inode ≠ 0) →
            (entries.map DirEntry.rec_len).sum = dir_inode.size) := by
  simp only [well_formed_directory, Bool.and_eq_true] at hwf
  obtain ⟨h1, h2⟩ := scan_entries_well_formed _ _ _ _ [] hwf.2
  refine ⟨_, _, rfl, ?_, rfl, by simpa using h2, ?_⟩
  · unfold get_directory_entries get_directory_entries_fuel
    simp only [hwf.1.1, Bool.not_true, Bool.false_eq_true, if_false]
    simpa using h1
  · intro hall
    rw [List.filter_eq_self.2 (by simpa using hall)]
    simpa using h2

/-- C6, as amended, on the directory `bin` of the sample image: one live record of
12 bytes and one deleted slot of 500 bytes. -/
theorem get_directory_entries_rec_len_sum_witness :
    well_formed_directory sample_disk sample_bin = true ∧ ∃ entries records,
      records = scanned_records (c_str (read_file_contents sample_disk sample_bin))
          sample_bin.size sample_bin.size 0
        ∧ get_directory_entries sample_disk sample_bin = .done entries
        ∧ entries = records.filter (fun e => e.inode != 0)
        ∧ (records.map DirEntry.rec_len).sum = sample_bin.size
        ∧ ((∀ e ∈ records, e.inode ≠ 0) →
            (entries.map DirEntry.rec_len).sum = sample_bin.size) :=
  ⟨by decide!, get_directory_entries_rec_len_sum sample_disk sample_bin (by decide!)⟩

/-- C6 as stated fails: the directory `bin` of the sample image is well-formed, its
content is 512 bytes long, and the `rec_len` of its one returned entry is 12. -/
theorem get_directory_entries_rec_len_sum_counterexample :
    well_formed_directory sample_disk sample_bin = true
      ∧ get_directory_entries sample_disk sample_bin = .done [entry_ls]
      ∧ (read_file_contents sample_disk sample_bin).length = sample_bin.size
      ∧ ([entry_ls].map DirEntry.rec_len).sum = 12
      ∧ sample_bin.size = 512
      ∧ ([entry_ls].map DirEntry.rec_len).sum ≠ sample_bin.size := by
  decide!

/-- C7 fails on the code: on a directory whose first record has `rec_len == 0` the
scan never exits, whatever fuel it is given. -/
theorem get_directory_entries_zero_rec_len_loops (fuel : Nat) :
    get_directory_entries_fuel fuel odd_disk dir_block10 = .unfinished := by
  have hdir : dir_block10.is_directory = true := by decide
  have hd : decode_entry (c_str (read_file_contents odd_disk dir_block10)) 0
      = some { inode := 5, rec_len := 0, name_len := 3, file_type := 2, name := name_bin } := by
    decide!
  unfold get_directory_entries_fuel
  simp only [hdir, Bool.not_true, Bool.false_eq_true, if_false]
  exact scan_entries_stalls _ _ 0 _ (by decide) hd rfl fuel []

/-! ## Name lookup -/

theorem find_loop_eq_find (name : Bytes) :
    ∀ entries : List DirEntry,
      find_loop name entries = (entries.find? (name_eq name)).getD empty_entry := by
  intro entries
  induction entries with
  | nil => rfl
  | cons e rest ih =>
    unfold find_loop
    by_cases h : name_eq name e = true
    · simp [h]
    · simp [h, ih]

theorem find_loop_first (name : Bytes) :
    ∀ entries : List DirEntry,
      (∃ pre e post, entries = pre ++ e :: post ∧ (∀ x ∈ pre, name_eq name x = false)
          ∧ name_eq name e = true ∧ find_loop name entries = e)
        ∨ ((∀ x ∈ entries, name_eq name x = false) ∧ find_loop name entries = empty_entry) := by
  intro entries
  induction entries with
  | nil => exact Or.inr ⟨by simp, rfl⟩
  | cons e rest ih =>
    by_cases h : name_eq name e = true
    · exact Or.inl ⟨[], e, rest, rfl, by simp, h, by simp [find_loop, h]⟩
    · have hf : find_loop name (e :: rest) = find_loop name rest := by simp [find_loop, h]
      rcases ih with ⟨pre, x, post, h1, h2, h3, h4⟩ | ⟨h1, h2⟩
      · refine Or.inl ⟨e :: pre, x, post, by simp [h1], ?_, h3, by rw [hf, h4]⟩
        intro y hy
        rcases List.mem_cons.1 hy with rfl | hy
        · simpa using h
        · exact h2 y hy
      · refine Or.inr ⟨?_, by rw [hf, h2]⟩
        intro y hy
        rcases List.mem_cons.1 hy with rfl | hy
        · simpa using h
        · exact h1 y hy

theorem find_congr_mem {α : Type} (p q : α → Bool) :
    ∀ l : List α, (∀ x ∈ l, p x = q x) → l.find? p = l.find? q := by
  intro l
  induction l with
  | nil => intro _; rfl
  | cons a l ih =>
    intro h
    have ha := h a (List.mem_cons_self a l)
    have hl := ih (fun x hx => h x (List.mem_cons_of_mem a hx))
    simp only [List.find?_cons, ha, hl]

/-- An entry whose name holds no zero byte compares equal to a query exactly when its
name is the query. -/
theorem name_eq_of_no_zero (name : Bytes) (entry : DirEntry) (h : ∀ c ∈ entry.name, c ≠ 0) :
    name_eq name entry = decide (entry.name = name) := by
  have htw : entry.name.takeWhile (fun c => c != 0) = entry.name :=
    List.takeWhile_eq_self_iff.2 (by simpa using h)
  simp only [name_eq, c_string, htw]
  by_cases he : entry.name = name
  · simp [he]
  · have : ¬ name = entry.name := fun h1 => he h1.symm
    simp [he, this]

/-- C9, as amended: when `get_directory_entries` returns `entries`,
`find_entry_by_name` returns the first entry of `entries`, in order, whose name read as
a C string (its bytes before the first zero byte) equals the query, as a linear search
with that comparison does, and it returns the sentinel, with `inode == 0`, exactly
when no entry of `entries` compares equal in that way; when no name of `entries`
holds a zero byte, that is the first entry whose name equals the query, and the
sentinel exactly when no entry has that name. -/
theorem find_entry_by_name_first_match (disk : Disk) (dir_inode : Inode) (name : Bytes)
    (entries : List DirEntry) (h : get_directory_entries disk dir_inode = .done entries) :
    ∃ r, find_entry_by_name disk dir_inode name = .done r
      ∧ r = (entries.find? (name_eq name)).getD empty_entry
      ∧ ((∃ pre e post, entries = pre ++ e :: post ∧ (∀ x ∈ pre, name_eq name x = false)
            ∧ name_eq name e = true ∧ r = e)
          ∨ ((∀ x ∈ entries, name_eq name x = false) ∧ r = empty_entry))
      ∧ (r.inode = 0 ↔ ∀ x ∈ entries, name_eq name x = false)
      ∧ (∀ x : DirEntry, name_eq name x = true ↔ name = x.name.takeWhile (fun c => c != 0))
      ∧ ((∀ x ∈ entries, ∀ c ∈ x.name, c ≠ 0) →
          r = (entries.find? (fun x => decide (x.name = name))).getD empty_entry
            ∧ (r.inode = 0 ↔ ∀ x ∈ entries, x.name ≠ name)) := by
  have hne := entries_inode_ne_zero _ disk dir_inode entries h
  have hiff : (find_loop name entries).inode = 0 ↔ ∀ x ∈ entries, name_eq name x = false := by
    rcases find_loop_first name entries with ⟨pre, e, post, h1, h2, h3, h4⟩ | ⟨h1, h2⟩
    · rw [h4]
      constructor
      · intro hz
        exact absurd hz (hne e (by simp [h1]))
      · intro hall
        have := hall e (by simp [h1])
        rw [h3] at this
        exact absurd this (by simp)
    · rw [h2]
      exact ⟨fun _ => h1, fun _ => rfl⟩
  refine ⟨find_loop name entries, by simp [find_entry_by_name, h, Outcome.bind],
    find_loop_eq_find name entries, find_loop_first name entries, hiff,
    fun x => by simp [name_eq, c_string], ?_⟩
  intro hnz
  have hcongr : ∀ x ∈ entries, name_eq name x = decide (x.name = name) :=
    fun x hx => name_eq_of_no_zero name x (hnz x hx)
  refine ⟨?_, ?_⟩
  · rw [find_loop_eq_find, find_congr_mem _ _ entries hcongr]
  · rw [hiff]
    constructor
    · intro hall x hx
      have := hall x hx
      rw [hcongr x hx] at this
      simpa using this
    · intro hall x hx
      rw [hcongr x hx]
      simpa using hall x hx

/-- C9, as amended, on the root directory of the sample image, looking up
`readme.txt`. -/
theorem find_entry_by_name_first_match_witness :
    get_directory_entries sample_disk sample_root = .done [entry_bin, entry_readme]
      ∧ find_entry_by_name sample_disk sample_root name_readme = .done entry_readme
      ∧ ∃ r, find_entry_by_name sample_disk sample_root name_readme = .done r
        ∧ r = ([entry_bin, entry_readme].find? (name_eq name_readme)).getD empty_entry
        ∧ ((∃ pre e post, [entry_bin, entry_readme] = pre ++ e :: post
              ∧ (∀ x ∈ pre, name_eq name_readme x = false)
              ∧ name_eq name_readme e = true ∧ r = e)
            ∨ ((∀ x ∈ [entry_bin, entry_readme], name_eq name_readme x = false)
              ∧ r = empty_entry))
        ∧ (r.inode = 0 ↔ ∀ x ∈ [entry_bin, entry_readme], name_eq name_readme x = false)
        ∧ (∀ x : DirEntry, name_eq name_readme x = true
            ↔ name_readme = x.name.takeWhile (fun c => c != 0))
        ∧ ((∀ x ∈ [entry_bin, entry_readme], ∀ c ∈ x.name, c ≠ 0) →
            r = ([entry_bin, entry_readme].find?
                  (fun x => decide (x.name = name_readme))).getD empty_entry
              ∧ (r.inode = 0 ↔ ∀ x ∈ [entry_bin, entry_readme], x.name ≠ name_readme)) :=
  ⟨by decide!, by decide!,
   find_entry_by_name_first_match sample_disk sample_root name_readme
     [entry_bin, entry_readme] (by decide!)⟩

/-- C9 as stated fails: the directory of block 14 of `dup_disk` yields the entry of
inode 9, whose name is the 3 bytes `a`, 0, `b`, then the entry of inode 10, named `a`.
For the query `a` the entry of inode 9 is returned, not the first entry whose name
equals the query; for the query `a`, 0, `b` the sentinel is returned although a
yielded entry has that name. -/
theorem find_entry_by_name_first_match_counterexample :
    get_directory_entries dup_disk dir_block14 = .done [entry_a0b, entry_a]
      ∧ entry_a0b.name = [97, 0, 98]
      ∧ entry_a.name = [97]
      ∧ find_entry_by_name dup_disk dir_block14 [97] = .done entry_a0b
      ∧ entry_a0b.name ≠ [97]
      ∧ find_entry_by_name dup_disk dir_block14 [97, 0, 98] = .done empty_entry
      ∧ empty_entry.inode = 0 := by
  decide!

theorem length_decode_entry_name (data : Bytes) (pos : Nat) (entry : DirEntry)
    (h : decode_entry data pos = some entry) : entry.name.length = entry.name_len := by
  unfold decode_entry at h
  split at h
  · dsimp only at h
    split at h
    · cases h
      simp only [List.length_map, List.length_take, List.length_drop]
      omega
    · exact absurd h (by simp)
  · exact absurd h (by simp)

/-- C10, as amended: a decoded entry is matched by a query exactly when the query
equals the bytes of the on-disk name before its first zero byte; for a name with no
zero byte among its `name_len` bytes that is: the query has length `name_len` and
equals those bytes, byte for byte. -/
theorem name_eq_iff (data : Bytes) (pos : Nat) (entry : DirEntry) (name : Bytes)
    (h : decode_entry data pos = some entry) :
    entry.name = ((data.drop (pos + 8)).take entry.name_len).map (fun c => c % 256)
      ∧ (name_eq name entry = true ↔ name = entry.name.takeWhile (fun c => c != 0))
      ∧ ((∀ c ∈ entry.name, c ≠ 0) →
          (name_eq name entry = true ↔ name.length = entry.name_len ∧ name = entry.name)) := by
  have hlen := length_decode_entry_name data pos entry h
  refine ⟨?_, by simp [name_eq, c_string], ?_⟩
  · unfold decode_entry at h
    split at h
    · dsimp only at h
      split at h
      · cases h; rfl
      · exact absurd h (by simp)
    · exact absurd h (by simp)
  · intro hnz
    have htw : entry.name.takeWhile (fun c => c != 0) = entry.name :=
      List.takeWhile_eq_self_iff.2 (by simpa using hnz)
    simp only [name_eq, c_string, htw, beq_iff_eq]
    constructor
    · intro he; exact ⟨by rw [he, hlen], he⟩
    · intro he; exact he.2

/-- C10, as amended, on the first record of the root directory of the sample image. -/
theorem name_eq_iff_witness :
    decode_entry (c_str (read_file_contents sample_disk sample_root)) 0 = some entry_bin
    ∧ entry_bin.name
        = (((c_str (read_file_contents sample_disk sample_root)).drop (0 + 8)).take
            entry_bin.name_len).map (fun c => c % 256)
      ∧ (name_eq name_bin entry_bin = true
          ↔ name_bin = entry_bin.name.takeWhile (fun c => c != 0))
      ∧ ((∀ c ∈ entry_bin.name, c ≠ 0) →
          (name_eq name_bin entry_bin = true
            ↔ name_bin.length = entry_bin.name_len ∧ name_bin = entry_bin.name)) :=
  ⟨by decide!,
   name_eq_iff (c_str (read_file_contents sample_disk sample_root)) 0 entry_bin name_bin
     (by decide!)⟩

/-- C10 as stated fails: the directory of block 11 of `odd_disk` holds one record whose
on-disk name is the 3 bytes `a`, 0, `b`; the 1-byte query `a` is matched to it, and the
query made of those 3 bytes is not. -/
theorem find_entry_by_name_zero_byte_counterexample :
    get_directory_entries odd_disk dir_block11
        = .done [{ inode := 9, rec_len := 512, name_len := 3, file_type := 1, name := [97, 0, 98] }]
      ∧ find_entry_by_name odd_disk dir_block11 [97]
        = .done { inode := 9, rec_len := 512, name_len := 3, file_type := 1, name := [97, 0, 98] }
      ∧ find_entry_by_name odd_disk dir_block11 [97, 0, 98] = .done empty_entry := by
  decide!

/-! ## Navigation -/

theorem replay_path_append (disk : Disk) (sb : Superblock) (name : Bytes) :
    ∀ (xs : List Bytes) (cur : Nat),
      replay_path disk sb (xs ++ [name]) cur
        = (replay_path disk sb xs cur).bind (fun c => replay_path disk sb [name] c) := by
  intro xs
  induction xs with
  | nil => intro cur; simp [replay_path, Outcome.bind]
  | cons x xs ih =>
    intro cur
    simp only [List.cons_append, replay_path]
    cases get_inode disk sb (toInt32 cur) with
    | done di =>
      simp only [Outcome.bind]
      cases find_entry_by_name disk di x with
      | done e => simp only [Outcome.bind]; exact ih _
      | undefined => rfl
      | unfinished => rfl
    | undefined => rfl
    | unfinished => rfl

/-- A descent that finds a directory: the outcome of `change_directory`. -/
theorem change_directory_descend (fs : ExtFilesystem) (name : Bytes) (dir_inode target : Inode)
    (entry : DirEntry) (hdot : name ≠ dot) (hdd : name ≠ dotdot)
    (hdir : get_inode fs.disk fs.superblock (toInt32 fs.current_dir_inode) = .done dir_inode)
    (hfind : find_entry_by_name fs.disk dir_inode name = .done entry)
    (hne : entry.inode ≠ 0)
    (htarget : get_inode fs.disk fs.superblock (toInt32 entry.inode) = .done target)
    (hisdir : target.is_directory = true) :
    change_directory fs name
      = .done (true, { fs with current_dir_inode := entry.inode
                               current_path := fs.current_path ++ [name] }) := by
  simp [change_directory, hdot, hdd, hdir, hfind, hne, htarget, hisdir, Outcome.bind]

/-- What a successful descent did. -/
theorem change_directory_descend_inv (fs fs1 : ExtFilesystem) (name : Bytes)
    (hdot : name ≠ dot) (hdd : name ≠ dotdot)
    (h : change_directory fs name = .done (true, fs1)) :
    ∃ dir_inode entry,
      get_inode fs.disk fs.superblock (toInt32 fs.current_dir_inode) = .done dir_inode
        ∧ find_entry_by_name fs.disk dir_inode name = .done entry
        ∧ fs1 = { fs with current_dir_inode := entry.inode
                          current_path := fs.current_path ++ [name] } := by
  simp only [change_directory, hdot, hdd, if_false] at h
  cases hg : get_inode fs.disk fs.superblock (toInt32 fs.current_dir_inode) with
  | done di =>
    rw [hg] at h
    simp only [Outcome.bind] at h
    cases hf : find_entry_by_name fs.disk di name with
    | done e =>
      rw [hf] at h
      simp only [Outcome.bind] at h
      refine ⟨di, e, rfl, hf, ?_⟩
      split at h
      · cases ht : get_inode fs.disk fs.superblock (toInt32 e.inode) with
        | done t =>
          rw [ht] at h
          simp only [Outcome.bind] at h
          split at h
          · simp only [Outcome.done.injEq, Prod.mk.injEq, true_and] at h
            exact h.symm
          · simp at h
        | undefined => rw [ht] at h; simp [Outcome.bind] at h
        | unfinished => rw [ht] at h; simp [Outcome.bind] at h
      · simp at h
    | undefined => rw [hf] at h; simp [Outcome.bind] at h
    | unfinished => rw [hf] at h; simp [Outcome.bind] at h
  | undefined => rw [hg] at h; simp [Outcome.bind] at h
  | unfinished => rw [hg] at h; simp [Outcome.bind] at h

/-- The invariant of the navigator: the path is not empty and replaying it from the
root gives the current inode. -/
theorem change_directory_preserves (fs fs1 : ExtFilesystem) (name : Bytes) (ok : Bool)
    (hpath : fs.current_path ≠ [])
    (hreplay : replay_path fs.disk fs.superblock (fs.current_path.drop 1) ROOT_INODE_NUMBER
      = .done fs.current_dir_inode)
    (h : change_directory fs name = .done (ok, fs1)) :
    fs1.current_path ≠ []
      ∧ replay_path fs1.disk fs1.superblock (fs1.current_path.drop 1) ROOT_INODE_NUMBER
          = .done fs1.current_dir_inode := by
  by_cases hdd : name = dotdot
  · simp only [change_directory, hdd, if_true] at h
    split at h
    · rename_i hlen
      cases hr : replay_path fs.disk fs.superblock (fs.current_path.dropLast.drop 1)
          ROOT_INODE_NUMBER with
      | done cur =>
        rw [hr] at h
        simp only [Outcome.bind, Outcome.done.injEq, Prod.mk.injEq] at h
        rw [← h.2]
        refine ⟨?_, hr⟩
        intro hnil
        have := congrArg List.length hnil
        simp only [List.length_dropLast, List.length_nil] at this
        omega
      | undefined => rw [hr] at h; simp [Outcome.bind] at h
      | unfinished => rw [hr] at h; simp [Outcome.bind] at h
    · simp only [Outcome.done.injEq, Prod.mk.injEq] at h
      rw [← h.2]; exact ⟨hpath, hreplay⟩
  · by_cases hdot : name = dot
    · have hne : dot ≠ dotdot := by decide
      simp only [change_directory, hdot, hne, if_true, if_false, Outcome.done.injEq,
        Prod.mk.injEq] at h
      rw [← h.2]; exact ⟨hpath, hreplay⟩
    · cases ok with
      | true =>
        obtain ⟨di, e, hg, hf, rfl⟩ := change_directory_descend_inv fs fs1 name hdot hdd h
        refine ⟨by simp, ?_⟩
        obtain ⟨p, ps, hp⟩ := List.exists_cons_of_ne_nil hpath
        simp only [hp, List.cons_append, List.drop_succ_cons, List.drop_zero] at hreplay ⊢
        rw [replay_path_append, hreplay]
        simp [Outcome.bind, replay_path, hg, hf]
      | false =>
        have hfs : fs1 = fs := by
          simp only [change_directory, hdot, hdd, if_false] at h
          cases hg : get_inode fs.disk fs.superblock (toInt32 fs.current_dir_inode) with
          | done di =>
            rw [hg] at h
            simp only [Outcome.bind] at h
            cases hf : find_entry_by_name fs.disk di name with
            | done e =>
              rw [hf] at h
              simp only [Outcome.bind] at h
              split at h
              · cases ht : get_inode fs.disk fs.superblock (toInt32 e.inode) with
                | done t =>
                  rw [ht] at h
                  simp only [Outcome.bind] at h
                  split at h
                  · simp at h
                  · simp only [Outcome.done.injEq, Prod.mk.injEq, true_and] at h
                    exact h.symm
                | undefined => rw [ht] at h; simp [Outcome.bind] at h
                | unfinished => rw [ht] at h; simp [Outcome.bind] at h
              · simp only [Outcome.done.injEq, Prod.mk.injEq, true_and] at h
                exact h.symm
            | undefined => rw [hf] at h; simp [Outcome.bind] at h
            | unfinished => rw [hf] at h; simp [Outcome.bind] at h
          | undefined => rw [hg] at h; simp [Outcome.bind] at h
          | unfinished => rw [hg] at h; simp [Outcome.bind] at h
        rw [hfs]; exact ⟨hpath, hreplay⟩

theorem reachable_invariant (disk : Disk) (fs : ExtFilesystem) (h : Reachable disk fs) :
    fs.current_path ≠ []
      ∧ replay_path fs.disk fs.superblock (fs.current_path.drop 1) ROOT_INODE_NUMBER
          = .done fs.current_dir_inode := by
  induction h with
  | init => exact ⟨by simp [ExtFilesystem.init], by simp [ExtFilesystem.init, replay_path]⟩
  | step name ok _ hcd ih => exact change_directory_preserves _ _ name ok ih.1 ih.2 hcd

/-- C2: in every state reachable from the initial one, after a successful
`change_directory(name)` with `name` other than `.` and `..`, the call
`change_directory("..")` succeeds and restores `current_dir_inode` and `current_path`
(and with them the whole state) to what they were before the descent. -/
theorem change_directory_descend_then_parent (disk : Disk) (fs fs1 : ExtFilesystem)
    (name : Bytes) (hreach : Reachable disk fs) (hdot : name ≠ dot) (hdd : name ≠ dotdot)
    (hcd : change_directory fs name = .done (true, fs1)) :
    change_directory fs1 dotdot = .done (true, fs) := by
  obtain ⟨hpath, hreplay⟩ := reachable_invariant disk fs hreach
  obtain ⟨di, e, _, _, rfl⟩ := change_directory_descend_inv fs fs1 name hdot hdd hcd
  have hlen : (fs.current_path ++ [name]).length > 1 := by
    have := List.length_pos.2 hpath
    simp only [List.length_append, List.length_singleton]
    omega
  simp only [change_directory, if_true, hlen, List.dropLast_concat, hreplay, Outcome.bind]

/-- C2 on the sample image: from the root, into `bin`, and back. -/
theorem change_directory_descend_then_parent_witness :
    Reachable sample_disk (ExtFilesystem.init sample_disk)
      ∧ change_directory (ExtFilesystem.init sample_disk) name_bin = .done (true, sample_fs_bin)
      ∧ change_directory sample_fs_bin dotdot = .done (true, ExtFilesystem.init sample_disk) :=
  have hcd : change_directory (ExtFilesystem.init sample_disk) name_bin
      = .done (true, sample_fs_bin) :=
    change_directory_descend (ExtFilesystem.init sample_disk) name_bin sample_root sample_bin
      entry_bin (by decide) (by decide) (by decide!) (by decide!) (by decide) (by decide!)
      (by decide)
  ⟨Reachable.init, hcd,
   change_directory_descend_then_parent sample_disk (ExtFilesystem.init sample_disk)
     sample_fs_bin name_bin Reachable.init (by decide) (by decide) hcd⟩

/-- C3, as amended: for a name other than `.` and `..`, if the entries of the current
directory hold no entry whose name read as a C string equals the name, or the first
entry that does, the one the lookup returns, has a target inode without the directory
bit `0x4000`, `change_directory` reports failure and leaves the state
(`current_dir_inode`, `current_path`) unchanged. -/
theorem change_directory_failed_descend (fs : ExtFilesystem) (name : Bytes) (dir_inode : Inode)
    (entries : List DirEntry) (hdot : name ≠ dot) (hdd : name ≠ dotdot)
    (hdir : get_inode fs.disk fs.superblock (toInt32 fs.current_dir_inode) = .done dir_inode)
    (hent : get_directory_entries fs.disk dir_inode = .done entries)
    (hbad : (∀ e ∈ entries, name_eq name e = false)
      ∨ ∃ e target, entries.find? (name_eq name) = some e
          ∧ get_inode fs.disk fs.superblock (toInt32 e.inode) = .done target
          ∧ target.is_directory = false) :
    change_directory fs name = .done (false, fs) := by
  have hfind : find_entry_by_name fs.disk dir_inode name = .done (find_loop name entries) := by
    simp [find_entry_by_name, hent, Outcome.bind]
  rcases hbad with hnone | ⟨e, target, hfirst, htarget, hnot⟩
  · have hl : find_loop name entries = empty_entry := by
      rcases find_loop_first name entries with ⟨pre, e, post, h1, _, h3, _⟩ | ⟨_, h2⟩
      · have := hnone e (by simp [h1])
        rw [h3] at this
        exact absurd this (by simp)
      · exact h2
    simp [change_directory, hdot, hdd, hdir, hfind, hl, empty_entry, Outcome.bind]
  · have hl : find_loop name entries = e := by
      rw [find_loop_eq_find, hfirst]; rfl
    simp only [change_directory, hdot, hdd, if_false, hdir, hfind, hl, Outcome.bind]
    split
    · simp [htarget, hnot, Outcome.bind]
    · rfl

/-- C3, as amended, on the sample image: from `/bin` the name `nofile` is not found, and from the
root the name `readme.txt` is found but is a regular file; both calls fail and leave
the state as it was. -/
theorem change_directory_failed_descend_witness :
    change_directory sample_fs_bin name_nofile = .done (false, sample_fs_bin)
      ∧ sample_fs_bin.current_path = [slash, name_bin]
      ∧ change_directory (ExtFilesystem.init sample_disk) name_readme
          = .done (false, ExtFilesystem.init sample_disk) :=
  ⟨change_directory_failed_descend sample_fs_bin name_nofile sample_bin [entry_ls]
      (by decide) (by decide) (by decide!) (by decide!) (Or.inl (by decide!)),
   rfl,
   change_directory_failed_descend (ExtFilesystem.init sample_disk) name_readme sample_root
      [entry_bin, entry_readme] (by decide) (by decide) (by decide!) (by decide!)
      (Or.inr ⟨entry_readme, sample_readme, by decide!, by decide!, by decide!⟩)⟩

theorem get_inode_zero (disk : Disk) (superblock : Superblock) :
    get_inode disk superblock 0 = .undefined := by
  have h1 : ¬ inode_index 0 < -(2 ^ 31) := by decide
  have h2 : inode_offset 0 < 0 := by decide
  simp only [get_inode, h1, h2, if_true, if_false]
  split <;> rfl

/-- C8 as stated fails: `get_inode` makes no test of the number. At 0 the index is -1
and the offset -128: the run goes on to the copy from 128 bytes before the block
buffer; nothing is rejected and there is no `InvalidInode` outcome. -/
theorem get_inode_zero_counterexample :
    inode_index 0 = -1
      ∧ inode_block_num (ExtFilesystem.init sample_disk).superblock 0 = 2
      ∧ inode_offset 0 = -128
      ∧ get_inode sample_disk (ExtFilesystem.init sample_disk).superblock 0 = .undefined := by
  decide!

/-- C8, as amended: `get_inode` does not itself reject inode number 0 (from there its
copy would start outside the block buffer); the callers keep the sentinel away from
it: when the lookup of `change_directory` returns an entry with `inode == 0`,
`change_directory` reports failure and leaves the state unchanged, and `get_inode` is
not run on that entry. -/
theorem get_inode_sentinel_guarded (fs : ExtFilesystem) (name : Bytes) (dir_inode : Inode)
    (entry : DirEntry) (hdot : name ≠ dot) (hdd : name ≠ dotdot)
    (hdir : get_inode fs.disk fs.superblock (toInt32 fs.current_dir_inode) = .done dir_inode)
    (hfind : find_entry_by_name fs.disk dir_inode name = .done entry)
    (hz : entry.inode = 0) :
    get_inode fs.disk fs.superblock (toInt32 entry.inode) = .undefined
      ∧ change_directory fs name = .done (false, fs) := by
  refine ⟨?_, ?_⟩
  · rw [hz]
    exact get_inode_zero _ _
  · simp [change_directory, hdot, hdd, hdir, hfind, hz, Outcome.bind]

/-- C8, as amended, on the sample image: the lookup of `nofile` in `/bin`. -/
theorem get_inode_sentinel_guarded_witness :
    find_entry_by_name sample_disk sample_bin name_nofile = .done empty_entry
      ∧ get_inode sample_fs_bin.disk sample_fs_bin.superblock (toInt32 empty_entry.inode)
          = .undefined
      ∧ change_directory sample_fs_bin name_nofile = .done (false, sample_fs_bin) :=
  ⟨by decide!,
   get_inode_sentinel_guarded sample_fs_bin name_nofile sample_bin empty_entry
     (by decide) (by decide) (by decide!) (by decide!) rfl⟩

/-! ## Outcomes of `change_directory`, its output and the working directory -/

theorem Outcome.bind_eq_done {α β : Type} (x : Outcome α) (f : α → Outcome β) (b : β) :
    x.bind f = .done b ↔ ∃ a, x = .done a ∧ f a = .done b := by
  cases x with
  | done a => simp [Outcome.bind]
  | undefined => simp [Outcome.bind]
  | unfinished => simp [Outcome.bind]

/-- At the root `..` changes nothing and returns `false`. -/
theorem change_directory_parent_at_root (fs : ExtFilesystem) (h : fs.current_path.length ≤ 1) :
    change_directory fs dotdot = .done (false, fs) := by
  have hn : ¬ fs.current_path.length > 1 := by omega
  simp [change_directory, hn]

/-- A lookup that returns the sentinel: the descent fails and writes its message. -/
theorem change_directory_not_found (fs : ExtFilesystem) (name : Bytes) (dir_inode : Inode)
    (entry : DirEntry) (hdot : name ≠ dot) (hdd : name ≠ dotdot)
    (hdir : get_inode fs.disk fs.superblock (toInt32 fs.current_dir_inode) = .done dir_inode)
    (hfind : find_entry_by_name fs.disk dir_inode name = .done entry) (hz : entry.inode = 0) :
    change_directory fs name = .done (false, fs)
      ∧ change_directory_output fs name = .done (error_message name) := by
  simp [change_directory, change_directory_output, hdot, hdd, hdir, hfind, hz, Outcome.bind]

/-- The three ways a returning call of `change_directory` leaves the state. -/
theorem change_directory_cases (fs fs1 : ExtFilesystem) (name : Bytes) (ok : Bool)
    (h : change_directory fs name = .done (ok, fs1)) :
    fs1 = fs
      ∨ (∃ cur, 1 < fs.current_path.length
          ∧ fs1 = { fs with current_path := fs.current_path.dropLast, current_dir_inode := cur })
      ∨ (∃ ino, fs1 = { fs with current_dir_inode := ino
                                current_path := fs.current_path ++ [name] }) := by
  unfold change_directory at h
  split at h
  · split at h
    · rename_i hlen
      obtain ⟨cur, _, h2⟩ := (Outcome.bind_eq_done _ _ _).1 h
      simp only [Outcome.done.injEq, Prod.mk.injEq] at h2
      exact Or.inr (Or.inl ⟨cur, hlen, h2.2.symm⟩)
    · simp only [Outcome.done.injEq, Prod.mk.injEq] at h
      exact Or.inl h.2.symm
  · split at h
    · simp only [Outcome.done.injEq, Prod.mk.injEq] at h
      exact Or.inl h.2.symm
    · obtain ⟨di, _, h2⟩ := (Outcome.bind_eq_done _ _ _).1 h
      obtain ⟨e, _, h3⟩ := (Outcome.bind_eq_done _ _ _).1 h2
      split at h3
      · obtain ⟨t, _, h4⟩ := (Outcome.bind_eq_done _ _ _).1 h3
        split at h4
        · simp only [Outcome.done.injEq, Prod.mk.injEq] at h4
          exact Or.inr (Or.inr ⟨e.inode, h4.2.symm⟩)
        · simp only [Outcome.done.injEq, Prod.mk.injEq] at h4
          exact Or.inl h4.2.symm
      · simp only [Outcome.done.injEq, Prod.mk.injEq] at h3
        exact Or.inl h3.2.symm

/-- In every reachable state the path starts with the root element `/`. -/
theorem reachable_path_head (disk : Disk) (fs : ExtFilesystem) (h : Reachable disk fs) :
    ∃ cs, fs.current_path = slash :: cs := by
  induction h with
  | init => exact ⟨[], rfl⟩
  | step name ok _ hcd ih =>
    obtain ⟨cs, hcs⟩ := ih
    rcases change_directory_cases _ _ name ok hcd with rfl | ⟨cur, hlen, rfl⟩ | ⟨ino, rfl⟩
    · exact ⟨cs, hcs⟩
    · simp only [hcs, List.length_cons] at hlen ⊢
      cases cs with
      | nil => simp at hlen
      | cons c cs => exact ⟨(c :: cs).dropLast, by simp [List.dropLast]⟩
    · exact ⟨cs ++ [name], by simp [hcs]⟩

theorem print_components_filter (cs : List Bytes) :
    print_components cs
      = ((cs.filter (fun c => decide (c ≠ slash))).map (fun c => slash ++ c)).flatten := by
  induction cs with
  | nil => rfl
  | cons c cs ih =>
    unfold print_components
    by_cases hc : c = slash
    · simp [hc, ih]
    · simp [hc, ih]

/-- C13, as amended: when `current_path` holds only the root element,
`change_directory("..")` is a no-op: the state is unchanged and the call writes
nothing; it returns `false`, the flag a failed navigation returns too, from which it
differs only by the message that a failed descent writes. -/
theorem change_directory_parent_at_root_noop (fs : ExtFilesystem)
    (h : fs.current_path.length ≤ 1) :
    change_directory fs dotdot = .done (false, fs)
      ∧ change_directory_output fs dotdot = .done []
      ∧ ∀ (name : Bytes) (dir_inode : Inode) (entry : DirEntry), name ≠ dot → name ≠ dotdot →
          get_inode fs.disk fs.superblock (toInt32 fs.current_dir_inode) = .done dir_inode →
          find_entry_by_name fs.disk dir_inode name = .done entry → entry.inode = 0 →
          change_directory fs name = change_directory fs dotdot
            ∧ change_directory_output fs name = .done (error_message name) := by
  have hn : ¬ fs.current_path.length > 1 := by omega
  refine ⟨change_directory_parent_at_root fs h, by simp [change_directory_output, hn], ?_⟩
  intro name dir_inode entry hdot hdd hdir hfind hz
  obtain ⟨h1, h2⟩ := change_directory_not_found fs name dir_inode entry hdot hdd hdir hfind hz
  exact ⟨by rw [h1, change_directory_parent_at_root fs h], h2⟩

/-- C13, as amended, at the root of the sample image. -/
theorem change_directory_parent_at_root_noop_witness :
    (ExtFilesystem.init sample_disk).current_path = [slash]
      ∧ change_directory (ExtFilesystem.init sample_disk) dotdot
          = .done (false, ExtFilesystem.init sample_disk)
      ∧ change_directory_output (ExtFilesystem.init sample_disk) dotdot = .done [] :=
  ⟨rfl,
   (change_directory_parent_at_root_noop (ExtFilesystem.init sample_disk) (by decide)).1,
   (change_directory_parent_at_root_noop (ExtFilesystem.init sample_disk) (by decide)).2.1⟩

/-- C13 as stated fails: at the root of the sample image `change_directory("..")`
and the failed `change_directory("nofile")` return the same result, the flag `false`
with the state unchanged. -/
theorem change_directory_parent_at_root_counterexample :
    change_directory (ExtFilesystem.init sample_disk) dotdot
        = .done (false, ExtFilesystem.init sample_disk)
      ∧ change_directory (ExtFilesystem.init sample_disk) name_nofile
        = .done (false, ExtFilesystem.init sample_disk)
      ∧ change_directory (ExtFilesystem.init sample_disk) dotdot
        = change_directory (ExtFilesystem.init sample_disk) name_nofile :=
  have h1 := change_directory_parent_at_root (ExtFilesystem.init sample_disk) (by decide)
  have h2 := (change_directory_not_found (ExtFilesystem.init sample_disk) name_nofile sample_root
    empty_entry (by decide) (by decide) (by decide!) (by decide!) rfl).1
  ⟨h1, h2, by rw [h1, h2]⟩

/-- C14, as amended: in every reachable state `current_path` is `/` followed by
components `c1 ... ck`; `print_working_directory` writes `/` for `k = 0` and otherwise
`/c` for each component `c` other than `/`, in order, then the end of line; so a path
none of whose components is `/` is written as `/c1/.../ck`, without a trailing
separator. -/
theorem print_working_directory_render (disk : Disk) (fs : ExtFilesystem)
    (h : Reachable disk fs) :
    ∃ cs, fs.current_path = slash :: cs
      ∧ (cs = [] → print_working_directory fs = slash ++ endl)
      ∧ (cs ≠ [] → print_working_directory fs
          = ((cs.filter (fun c => decide (c ≠ slash))).map (fun c => slash ++ c)).flatten ++ endl)
      ∧ (cs ≠ [] → (∀ c ∈ cs, c ≠ slash) →
          print_working_directory fs = (cs.map (fun c => slash ++ c)).flatten ++ endl) := by
  obtain ⟨cs, hcs⟩ := reachable_path_head disk fs h
  have hgen : cs ≠ [] → print_working_directory fs
      = ((cs.filter (fun c => decide (c ≠ slash))).map (fun c => slash ++ c)).flatten ++ endl := by
    intro hne
    have hlen : ¬ (slash :: cs).length = 1 := by
      cases cs with
      | nil => exact absurd rfl hne
      | cons c cs => simp
    simp only [print_working_directory, hcs, hlen, if_false]
    rw [print_components_filter]
    simp
  refine ⟨cs, hcs, ?_, hgen, ?_⟩
  · intro hnil
    simp [print_working_directory, hcs, hnil]
  · intro hne hall
    rw [hgen hne, List.filter_eq_self.2 (by simpa using hall)]

/-- C14, as amended, on the sample image: in `/bin` the call writes `/bin`. -/
theorem print_working_directory_render_witness :
    Reachable sample_disk sample_fs_bin
      ∧ ∃ cs, sample_fs_bin.current_path = slash :: cs
        ∧ (cs = [] → print_working_directory sample_fs_bin = slash ++ endl)
        ∧ (cs ≠ [] → print_working_directory sample_fs_bin
            = ((cs.filter (fun c => decide (c ≠ slash))).map (fun c => slash ++ c)).flatten
              ++ endl)
        ∧ (cs ≠ [] → (∀ c ∈ cs, c ≠ slash) →
            print_working_directory sample_fs_bin
              = (cs.map (fun c => slash ++ c)).flatten ++ endl) :=
  have hr : Reachable sample_disk sample_fs_bin :=
    Reachable.step name_bin true Reachable.init
      (change_directory_descend (ExtFilesystem.init sample_disk) name_bin sample_root sample_bin
        entry_bin (by decide) (by decide) (by decide!) (by decide!) (by decide) (by decide!)
        (by decide))
  ⟨hr, print_working_directory_render sample_disk sample_fs_bin hr⟩

/-- C14 as stated fails: on `slash_disk` the root holds a directory entry named `/`;
after `change_directory("/")` the path is `/`, `/` and `print_working_directory`
writes an empty line, not `//`. -/
theorem print_working_directory_counterexample :
    Reachable slash_disk slash_fs
      ∧ slash_fs.current_path = [slash, slash]
      ∧ print_working_directory slash_fs = endl
      ∧ print_working_directory slash_fs ≠ slash ++ slash ++ endl :=
  ⟨Reachable.step slash true Reachable.init
      (change_directory_descend (ExtFilesystem.init slash_disk) slash
        { mode := 0x41ED, size := 512, blocks := 1
          direct_blocks := [10, 0, 0, 0, 0, 0, 0, 0, 0, 0, 0, 0], indirect_block := 0 }
        { mode := 0x41ED, size := 512, blocks := 1
          direct_blocks := [11, 0, 0, 0, 0, 0, 0, 0, 0, 0, 0, 0], indirect_block := 0 }
        { inode := 5, rec_len := 512, name_len := 1, file_type := 2, name := slash }
        (by decide) (by decide) (by decide!) (by decide!) (by decide) (by decide!) (by decide)),
   rfl, by decide, by decide⟩

/-- C15, as amended: for a name other than `.` and `..`, when the first entry of the
current directory whose name read as a C string equals the name, the one the lookup
returns, has a target inode with the directory bit `0x4000`, `change_directory`
succeeds, sets `current_dir_inode` to the inode number of that entry and appends the
name to `current_path`, whose earlier elements stay. -/
theorem change_directory_descend_success (fs : ExtFilesystem) (name : Bytes)
    (dir_inode target : Inode) (entries : List DirEntry) (entry : DirEntry)
    (hdot : name ≠ dot) (hdd : name ≠ dotdot)
    (hdir : get_inode fs.disk fs.superblock (toInt32 fs.current_dir_inode) = .done dir_inode)
    (hent : get_directory_entries fs.disk dir_inode = .done entries)
    (hfirst : entries.find? (name_eq name) = some entry)
    (htarget : get_inode fs.disk fs.superblock (toInt32 entry.inode) = .done target)
    (hisdir : target.is_directory = true) :
    ∃ fs1, change_directory fs name = .done (true, fs1)
      ∧ fs1.current_dir_inode = entry.inode
      ∧ fs1.current_path = fs.current_path ++ [name]
      ∧ fs1.disk = fs.disk ∧ fs1.superblock = fs.superblock := by
  have hfind : find_entry_by_name fs.disk dir_inode name = .done entry := by
    simp [find_entry_by_name, hent, Outcome.bind, find_loop_eq_find, hfirst]
  have hne : entry.inode ≠ 0 :=
    entries_inode_ne_zero _ fs.disk dir_inode entries hent entry (List.mem_of_find?_eq_some hfirst)
  exact ⟨_, change_directory_descend fs name dir_inode target entry hdot hdd hdir hfind hne
    htarget hisdir, rfl, rfl, rfl, rfl⟩

/-- C15, as amended, on the sample image: from the root, `change_directory("bin")` succeeds, the
current inode becomes 5 and the working directory is written as `/bin`. -/
theorem change_directory_descend_success_witness :
    (∃ fs1, change_directory (ExtFilesystem.init sample_disk) name_bin = .done (true, fs1)
      ∧ fs1.current_dir_inode = entry_bin.inode
      ∧ fs1.current_path = (ExtFilesystem.init sample_disk).current_path ++ [name_bin]
      ∧ fs1.disk = (ExtFilesystem.init sample_disk).disk
      ∧ fs1.superblock = (ExtFilesystem.init sample_disk).superblock)
      ∧ entry_bin.inode = 5
      ∧ print_working_directory sample_fs_bin = slash ++ name_bin ++ endl :=
  ⟨change_directory_descend_success (ExtFilesystem.init sample_disk) name_bin sample_root
      sample_bin [entry_bin, entry_readme] entry_bin (by decide) (by decide) (by decide!)
      (by decide!) (by decide!) (by decide!) (by decide),
   rfl, by decide⟩

/-! ## Inode table arithmetic and layout -/

theorem byteAt_read_block (disk : Disk) (b : Int) (i : Nat) (h : i < 512) :
    byteAt (read_block disk b) i = disk b i % 256 := by
  simp [byteAt, read_block, BLOCK_SIZE, List.getD_eq_getElem?_getD, List.getElem?_range h, h]

theorem inode_offset_of_pos (n : Int) (h : 1 ≤ n) :
    inode_offset n = (n - 1) % 4 * 128 := by
  have h0 : (0 : Int) ≤ n - 1 := by omega
  simp only [inode_offset, inode_index, INODES_PER_BLOCK, INODE_SIZE, BLOCK_SIZE]
  rw [show ((512 / 128 : Nat) : Int) = 4 from rfl, Int.tmod_eq_emod h0 (by decide)]
  rfl

theorem inode_block_num_of_pos (superblock : Superblock) (n : Int) (h : 1 ≤ n) :
    inode_block_num superblock n = superblock.first_inode_block + (n - 1) / 4 := by
  have h0 : (0 : Int) ≤ n - 1 := by omega
  simp only [inode_block_num, inode_index, INODES_PER_BLOCK, INODE_SIZE, BLOCK_SIZE]
  rw [show ((512 / 128 : Nat) : Int) = 4 from rfl, Int.tdiv_eq_ediv h0 (by decide)]

/-- The offset of a call of `get_inode` that returns is one of 0, 128, 256, 384. -/
theorem get_inode_done_offset (disk : Disk) (superblock : Superblock) (n : Int) (inode : Inode)
    (h : get_inode disk superblock n = .done inode) :
    (inode_offset n).toNat + 128 ≤ 512
      ∧ inode = decode_inode (read_block disk (inode_block_num superblock n))
          (inode_offset n).toNat := by
  unfold get_inode at h
  split at h
  · exact absurd h (by simp)
  · split at h
    · exact absurd h (by simp)
    · split at h
      · exact absurd h (by simp)
      · rename_i hoff
        simp only [Outcome.done.injEq] at h
        refine ⟨?_, h.symm⟩
        have hlt := Int.tmod_lt_of_pos (inode_index n) (show (0 : Int) < 4 by decide)
        simp only [inode_offset, INODES_PER_BLOCK, INODE_SIZE, BLOCK_SIZE] at hoff ⊢
        rw [show ((512 / 128 : Nat) : Int) = 4 from rfl] at hoff ⊢
        omega

/-- C16: for every inode number `n >= 1`, `get_inode` computes the block
`first_inode_block + (n - 1) / 4` and the byte offset `((n - 1) mod 4) * 128`, one of
0, 128, 256, 384, so that the record lies inside the 512-byte block; whenever that
block number is an `int`, `get_inode` returns the record decoded at that offset of
that block. -/
theorem get_inode_block_and_offset (disk : Disk) (superblock : Superblock) (n : Int)
    (h : 1 ≤ n) :
    inode_block_num superblock n = superblock.first_inode_block + (n - 1) / 4
      ∧ inode_offset n = (n - 1) % 4 * 128
      ∧ (inode_offset n = 0 ∨ inode_offset n = 128 ∨ inode_offset n = 256
          ∨ inode_offset n = 384)
      ∧ inode_offset n + (INODE_SIZE : Int) ≤ (BLOCK_SIZE : Int)
      ∧ (-(2 ^ 31) ≤ superblock.first_inode_block + (n - 1) / 4
          ∧ superblock.first_inode_block + (n - 1) / 4 < 2 ^ 31 →
          get_inode disk superblock n
            = .done (decode_inode (read_block disk (superblock.first_inode_block + (n - 1) / 4))
                ((n - 1) % 4 * 128).toNat)) := by
  have hb := inode_block_num_of_pos superblock n h
  have ho := inode_offset_of_pos n h
  refine ⟨hb, ho, ?_, ?_, ?_⟩
  · rw [ho]; omega
  · rw [ho]; simp only [INODE_SIZE, BLOCK_SIZE]; omega
  · intro hr
    have h1 : ¬ inode_index n < -(2 ^ 31) := by simp only [inode_index]; omega
    have h2 : ¬ (inode_block_num superblock n < -(2 ^ 31)
        ∨ 2 ^ 31 ≤ inode_block_num superblock n) := by rw [hb]; omega
    have h3 : ¬ inode_offset n < 0 := by rw [ho]; omega
    rw [get_inode, if_neg h1, if_neg h2, if_neg h3, hb, ho]

/-- C16 on the sample image: inode 7 is read from block 3 at offset 256. -/
theorem get_inode_block_and_offset_witness :
    inode_block_num (ExtFilesystem.init sample_disk).superblock 7 = 3
      ∧ inode_offset 7 = 256
      ∧ get_inode sample_disk (ExtFilesystem.init sample_disk).superblock 7
          = .done (decode_inode (read_block sample_disk
              ((ExtFilesystem.init sample_disk).superblock.first_inode_block + (7 - 1) / 4))
              ((7 - 1) % 4 * 128 : Int).toNat) :=
  ⟨by decide!, by decide!,
   (get_inode_block_and_offset sample_disk (ExtFilesystem.init sample_disk).superblock 7
      (by decide)).2.2.2.2 (by decide!)⟩

/-- C20, as amended: `get_inode` decodes the fields from the layout the compiler
gives `struct Inode`, in which two padding bytes follow `mode`: `mode` from bytes 0-1
of the record, `size` from bytes 4-7, `blocks` from bytes 8-11, `direct_blocks[i]` from
bytes `12 + 4i .. 15 + 4i` and `indirect_block` from bytes 60-63, little-endian, each
byte being the byte of the disk at that offset of the block of the record. -/
theorem get_inode_layout (disk : Disk) (superblock : Superblock) (n : Int) (inode : Inode)
    (h : get_inode disk superblock n = .done inode) :
    ∃ off, off = (inode_offset n).toNat ∧ off + 128 ≤ 512
      ∧ (∀ k, k < 64 → byteAt (read_block disk (inode_block_num superblock n)) (off + k)
            = disk (inode_block_num superblock n) (off + k) % 256)
      ∧ inode.mode = le16 (read_block disk (inode_block_num superblock n)) off
      ∧ inode.size = le32 (read_block disk (inode_block_num superblock n)) (off + 4)
      ∧ inode.blocks = le32 (read_block disk (inode_block_num superblock n)) (off + 8)
      ∧ inode.direct_blocks.length = 12
      ∧ (∀ i, i < 12 → inode.direct_blocks.getD i 0
            = le32 (read_block disk (inode_block_num superblock n)) (off + 12 + 4 * i))
      ∧ inode.indirect_block
          = le32 (read_block disk (inode_block_num superblock n)) (off + 60) := by
  obtain ⟨hoff, rfl⟩ := get_inode_done_offset disk superblock n inode h
  refine ⟨_, rfl, hoff, ?_, rfl, rfl, rfl, by simp [decode_inode, DIRECT_BLOCKS], ?_, rfl⟩
  · intro k hk
    exact byteAt_read_block disk _ _ (by omega)
  · intro i hi
    simp [decode_inode, DIRECT_BLOCKS, List.getD_eq_getElem?_getD, List.getElem?_range hi, hi]

/-- C20, as amended, on the root inode of the sample image. -/
theorem get_inode_layout_witness :
    get_inode sample_disk (ExtFilesystem.init sample_disk).superblock 2 = .done sample_root
      ∧ sample_root.size
          = le32 (read_block sample_disk
              (inode_block_num (ExtFilesystem.init sample_disk).superblock 2)) (128 + 4) :=
  have h := get_inode_layout sample_disk (ExtFilesystem.init sample_disk).superblock 2
    sample_root (by decide!)
  ⟨by decide!, by
    obtain ⟨off, h1, _, _, _, h5, _⟩ := h
    have : off = 128 := by rw [h1]; decide
    rw [h5, this]⟩

/-- C20 as stated fails: the root inode of the sample image has `size` 512, read from
bytes 4-7 of its record; bytes 2-5, where the packed layout puts `size`, hold
33554432. -/
theorem get_inode_layout_counterexample :
    get_inode sample_disk (ExtFilesystem.init sample_disk).superblock 2 = .done sample_root
      ∧ sample_root.size = 512
      ∧ (packed_inode (read_block sample_disk 2) 128).size = 33554432
      ∧ packed_inode (read_block sample_disk 2) 128 ≠ sample_root := by
  decide!

/-! ## Reads past the end of a buffer -/

/-- C12 fails on the code: a record whose name passes the end of the 16-byte content
by one byte is returned, its last name byte being the terminator that follows the
content in the buffer; with two bytes past the end the copy leaves the buffer. No
failure is reported in either case. -/
theorem get_directory_entries_name_overrun :
    (read_file_contents overrun_disk dir16_block10).length = 16
      ∧ get_directory_entries overrun_disk dir16_block10
        = .done [{ inode := 9, rec_len := 16, name_len := 9, file_type := 1
                   name := name_abcdefgh ++ [0] }]
      ∧ get_directory_entries overrun_disk dir16_block11 = .undefined := by
  decide!

/-- C17 fails on the code: with a label of 32 chars `A` and no zero among them, the
string returned is 34 chars long and ends with the first two bytes of `block_size`. -/
theorem get_disk_label_overrun :
    (ExtFilesystem.init label_disk).superblock.disk_label = List.replicate 32 65
      ∧ (ExtFilesystem.init label_disk).superblock.block_size = 513
      ∧ get_disk_label (ExtFilesystem.init label_disk) = .done (List.replicate 32 65 ++ [1, 2]) := by
  decide!

/-! ## Content assembly against the resolved block sequence -/

theorem take_min_read_block (disk : Disk) (b : Int) (n : Nat) :
    (read_block disk b).take (min 512 n) = (read_block disk b).take n := by
  rw [List.take_eq_take, length_read_block]
  omega

theorem length_concat_blocks (disk : Disk) (blocks : List Nat) :
    (concat_blocks disk blocks).length = 512 * blocks.length := by
  induction blocks with
  | nil => rfl
  | cons b bs ih =>
    have : concat_blocks disk (b :: bs) = read_block disk (toInt32 b) ++ concat_blocks disk bs := rfl
    rw [this, List.length_append, ih, length_read_block, List.length_cons]
    omega

theorem concat_blocks_append (disk : Disk) (xs ys : List Nat) :
    concat_blocks disk (xs ++ ys) = concat_blocks disk xs ++ concat_blocks disk ys := by
  simp [concat_blocks]

theorem takeWhile_range_length_le (p : Nat → Bool) (b : Nat) (hp : ∀ x, p x = true → x < b) :
    ∀ (n s : Nat), ((List.range' s n).takeWhile p).length ≤ b - s := by
  intro n
  induction n with
  | zero => intro s; simp
  | succ n ih =>
    intro s
    rw [List.range'_succ, List.takeWhile_cons]
    split
    · rename_i hs
      have h1 := hp s hs
      have h2 := ih (s + 1)
      simp only [List.length_cons]
      omega
    · simp

theorem direct_loop_eq_resolved (disk : Disk) (inode : Inode) (hsz : inode.size < 2 ^ 32) :
    ∀ (fuel i : Nat) (c : Bytes), fuel + i = 12 →
      direct_loop disk inode fuel i c
        = c ++ (concat_blocks disk (((List.range' i fuel).takeWhile
              (fun i => decide (i * 512 < inode.size) && inode.direct_blocks.getD i 0 != 0)).map
              (fun i => inode.direct_blocks.getD i 0))).take (inode.size - i * 512) := by
  intro fuel
  induction fuel with
  | zero => intro i c _; simp [direct_loop, concat_blocks]
  | succ f ih =>
    intro i c hi
    unfold direct_loop
    rw [List.range'_succ, List.takeWhile_cons]
    split
    · rename_i hcond
      simp only [DIRECT_BLOCKS, BLOCK_SIZE] at hcond
      split
      · rename_i hz
        have hp : ¬ (decide (i * 512 < inode.size) && inode.direct_blocks.getD i 0 != 0) = true := by
          rw [hz]; simp
        rw [if_neg hp]
        simp [concat_blocks]
      · rename_i hnz
        have hp : (decide (i * 512 < inode.size) && inode.direct_blocks.getD i 0 != 0) = true := by
          rw [Bool.and_eq_true]
          exact ⟨decide_eq_true hcond.2, by simpa [bne_iff_ne] using hnz⟩
        have hs := usub32_of_le (Nat.le_of_lt hcond.2) hsz
        rw [if_pos hp, ih (i + 1) _ (by omega)]
        simp only [BLOCK_SIZE, hs, take_min_read_block, List.map_cons]
        have hc : concat_blocks disk (inode.direct_blocks.getD i 0 ::
            List.map (fun i => inode.direct_blocks.getD i 0)
              (List.takeWhile (fun i => decide (i * 512 < inode.size)
                && inode.direct_blocks.getD i 0 != 0) (List.range' (i + 1) f)))
            = read_block disk (toInt32 (inode.direct_blocks.getD i 0))
              ++ concat_blocks disk (List.map (fun i => inode.direct_blocks.getD i 0)
                (List.takeWhile (fun i => decide (i * 512 < inode.size)
                  && inode.direct_blocks.getD i 0 != 0) (List.range' (i + 1) f))) := rfl
        rw [hc, List.take_append_eq_append_take, length_read_block, List.append_assoc]
        have he : inode.size - (i + 1) * 512 = inode.size - i * 512 - 512 := by omega
        rw [he]
    · rename_i hcond
      simp only [DIRECT_BLOCKS, BLOCK_SIZE] at hcond
      have hge : ¬ i * 512 < inode.size := by omega
      have hp : ¬ (decide (i * 512 < inode.size) && inode.direct_blocks.getD i 0 != 0) = true := by
        simp [hge]
      rw [if_neg hp]
      simp [concat_blocks]

theorem indirect_loop_eq_resolved (disk : Disk) (inode : Inode) (hsz : inode.size < 2 ^ 32)
    (ib : Bytes) (bn : Nat) :
    ∀ (fuel j : Nat) (c : Bytes), fuel + j = 128 → c.length ≤ inode.size →
      bn = j + (inode.size - c.length + 511) / 512 →
      indirect_loop disk inode ib (bn : Int) fuel j c
        = c ++ (concat_blocks disk (((List.range' j fuel).takeWhile
              (fun j => decide (j < bn) && le32 ib (4 * j) != 0)).map
              (fun j => le32 ib (4 * j)))).take (inode.size - c.length) := by
  intro fuel
  induction fuel with
  | zero => intro j c _ _ _; simp [indirect_loop, concat_blocks]
  | succ f ih =>
    intro j c hj hlen hbn
    unfold indirect_loop
    rw [List.range'_succ, List.takeWhile_cons]
    split
    · rename_i hcond
      simp only [BLOCK_SIZE] at hcond
      have hjb : j < bn := by omega
      split
      · rename_i hz
        have hp : ¬ (decide (j < bn) && le32 ib (4 * j) != 0) = true := by
          rw [hz]; simp
        rw [if_neg hp]
        simp [concat_blocks]
      · rename_i hnz
        have hp : (decide (j < bn) && le32 ib (4 * j) != 0) = true := by
          rw [Bool.and_eq_true]
          exact ⟨decide_eq_true hjb, by simpa [bne_iff_ne] using hnz⟩
        have hs := usub64_of_le hlen (by omega : inode.size < 2 ^ 64)
        have hl : (c ++ List.take (min BLOCK_SIZE (usub64 inode.size c.length))
            (read_block disk (toInt32 (le32 ib (4 * j))))).length
            = c.length + min 512 (inode.size - c.length) := by
          simp only [BLOCK_SIZE, hs, List.length_append, List.length_take, length_read_block]
          omega
        rw [if_pos hp, ih (j + 1) _ (by omega) (by rw [hl]; omega) (by rw [hl]; omega), hl]
        simp only [BLOCK_SIZE, hs, take_min_read_block, List.map_cons]
        have hc : concat_blocks disk (le32 ib (4 * j) ::
            List.map (fun j => le32 ib (4 * j))
              (List.takeWhile (fun j => decide (j < bn) && le32 ib (4 * j) != 0)
                (List.range' (j + 1) f)))
            = read_block disk (toInt32 (le32 ib (4 * j)))
              ++ concat_blocks disk (List.map (fun j => le32 ib (4 * j))
                (List.takeWhile (fun j => decide (j < bn) && le32 ib (4 * j) != 0)
                  (List.range' (j + 1) f))) := rfl
        rw [hc, List.take_append_eq_append_take, length_read_block, List.append_assoc]
        have he : inode.size - (c.length + min 512 (inode.size - c.length))
            = inode.size - c.length - 512 := by omega
        rw [he]
    · rename_i hcond
      simp only [BLOCK_SIZE] at hcond
      have hge : ¬ j < bn := by omega
      have hp : ¬ (decide (j < bn) && le32 ib (4 * j) != 0) = true := by
        simp [hge]
      rw [if_neg hp]
      simp [concat_blocks]

/-- The content assembled is the concatenation of the resolved blocks cut at `size`. -/
theorem read_file_contents_eq_resolved (disk : Disk) (inode : Inode)
    (hsz : inode.size < 2 ^ 32) :
    read_file_contents disk inode
      = (concat_blocks disk (resolved_blocks disk inode)).take inode.size := by
  have hd : direct_loop disk inode DIRECT_BLOCKS 0 []
      = (concat_blocks disk (resolved_direct inode)).take inode.size := by
    have := direct_loop_eq_resolved disk inode hsz 12 0 [] rfl
    simpa [resolved_direct, List.range_eq_range', DIRECT_BLOCKS] using this
  have hdl : (direct_loop disk inode DIRECT_BLOCKS 0 []).length
      = min inode.size (512 * (resolved_direct inode).length) := by
    rw [hd, List.length_take, length_concat_blocks]
  unfold read_file_contents
  dsimp only
  split
  · rename_i hcond
    have hlt : 512 * (resolved_direct inode).length < inode.size := by omega
    have hfull : direct_loop disk inode DIRECT_BLOCKS 0 []
        = concat_blocks disk (resolved_direct inode) := by
      rw [hd, List.take_of_length_le (by rw [length_concat_blocks]; omega)]
    have hl : (direct_loop disk inode DIRECT_BLOCKS 0 []).length
        = 512 * (resolved_direct inode).length := by omega
    have hs := usub64_of_le (Nat.le_of_lt hcond.2) (by omega : inode.size < 2 ^ 64)
    have hbn : toInt32 ((usub64 inode.size (direct_loop disk inode DIRECT_BLOCKS 0 []).length
          + BLOCK_SIZE - 1) % 2 ^ 64 / BLOCK_SIZE)
        = (((inode.size - 512 * (resolved_direct inode).length + 511) / 512 : Nat) : Int) := by
      rw [hs, hl]
      simp only [BLOCK_SIZE]
      have h1 : (inode.size - 512 * (resolved_direct inode).length + 512 - 1) % 2 ^ 64 / 512
          = (inode.size - 512 * (resolved_direct inode).length + 511) / 512 := by omega
      rw [h1]
      exact toInt32_of_lt (by omega)
    rw [hbn]
    have hi := indirect_loop_eq_resolved disk inode hsz
      (read_block disk (toInt32 inode.indirect_block))
      ((inode.size - 512 * (resolved_direct inode).length + 511) / 512)
      128 0 (direct_loop disk inode DIRECT_BLOCKS 0 []) rfl (Nat.le_of_lt hcond.2)
      (by rw [hl]; omega)
    have hri : resolved_indirect disk inode
        = ((List.range' 0 128).takeWhile
            (fun j => decide (j < (inode.size - 512 * (resolved_direct inode).length + 511) / 512)
              && le32 (read_block disk (toInt32 inode.indirect_block)) (4 * j) != 0)).map
            (fun j => le32 (read_block disk (toInt32 inode.indirect_block)) (4 * j)) := by
      unfold resolved_indirect
      rw [if_pos ⟨by omega, hcond.1⟩, List.range_eq_range']
      rfl
    simp only [BLOCK_SIZE] at hi ⊢
    have ht : List.take inode.size (concat_blocks disk (resolved_direct inode))
        = concat_blocks disk (resolved_direct inode) :=
      List.take_of_length_le (by rw [length_concat_blocks]; omega)
    rw [hi, hl, ← hri, hfull, resolved_blocks, concat_blocks_append,
      List.take_append_eq_append_take, length_concat_blocks, ht]
  · rename_i hcond
    have hri : resolved_indirect disk inode = [] := by
      unfold resolved_indirect
      rw [if_neg]
      rintro ⟨h1, h2⟩
      exact hcond ⟨h2, by omega⟩
    rw [resolved_blocks, hri, List.append_nil, hd]

theorem resolved_blocks_length_le (disk : Disk) (inode : Inode) :
    (resolved_blocks disk inode).length ≤ (inode.size + 511) / 512 := by
  have hd : (resolved_direct inode).length ≤ (inode.size + 511) / 512 := by
    have := takeWhile_range_length_le
      (fun i => decide (i * 512 < inode.size) && inode.direct_blocks.getD i 0 != 0)
      ((inode.size + 511) / 512)
      (by intro x hx; simp only [Bool.and_eq_true, decide_eq_true_eq] at hx; omega) 12 0
    simpa [resolved_direct, List.range_eq_range'] using this
  rw [resolved_blocks, List.length_append]
  unfold resolved_indirect
  split
  · rename_i hcond
    have := takeWhile_range_length_le
      (fun j => decide (j < (inode.size - 512 * (resolved_direct inode).length + 511) / 512)
        && indirect_entry disk inode j != 0)
      ((inode.size - 512 * (resolved_direct inode).length + 511) / 512)
      (by intro x hx; simp only [Bool.and_eq_true, decide_eq_true_eq] at hx; exact hx.1) 128 0
    simp only [List.length_map, List.range_eq_range']
    omega
  · simpa using hd

/-- C18: `read_file_contents` returns the first `inode.size` bytes of the
concatenation of the blocks of the resolved sequence: the direct entries taken while
`i < 12`, `i * 512 < size` and the entry is nonzero, then, when bytes remain and
`indirect_block != 0`, the entries of the indirect block taken while fewer than
`ceil(remaining / 512)` are taken, the index is below 128 and the entry is nonzero;
the sequence never has more than `ceil(size / 512)` blocks. -/
theorem read_file_contents_two_phase (disk : Disk) (inode : Inode)
    (hsz : inode.size < 2 ^ 32) :
    read_file_contents disk inode
        = (concat_blocks disk (resolved_direct inode ++ resolved_indirect disk inode)).take
            inode.size
      ∧ (resolved_direct inode ++ resolved_indirect disk inode).length
          ≤ (inode.size + 511) / 512 :=
  ⟨read_file_contents_eq_resolved disk inode hsz, resolved_blocks_length_le disk inode⟩

/-- C18 at a file of 7000 bytes, twelve direct blocks and two indirect ones, and at an
inode whose second direct pointer is 0. -/
theorem read_file_contents_two_phase_witness :
    resolved_direct (file_inode 7000 twelve_blocks 40) = twelve_blocks
      ∧ resolved_indirect ones_disk (file_inode 7000 twelve_blocks 40) = [16843009, 16843009]
      ∧ resolved_direct (file_inode 700 [20, 0, 22] 0) = [20]
      ∧ (read_file_contents ones_disk (file_inode 7000 twelve_blocks 40)
          = (concat_blocks ones_disk (resolved_direct (file_inode 7000 twelve_blocks 40)
              ++ resolved_indirect ones_disk (file_inode 7000 twelve_blocks 40))).take
              (file_inode 7000 twelve_blocks 40).size
        ∧ (resolved_direct (file_inode 7000 twelve_blocks 40)
            ++ resolved_indirect ones_disk (file_inode 7000 twelve_blocks 40)).length
            ≤ ((file_inode 7000 twelve_blocks 40).size + 511) / 512) :=
  ⟨by decide!, by decide!, by decide!,
   read_file_contents_two_phase ones_disk (file_inode 7000 twelve_blocks 40) (by decide)⟩

/-- C11, as amended: `read_file_contents` has no failure: when the resolved block
sequence is exhausted before `size` bytes are accumulated, it returns the bytes of the
resolved blocks, a byte string shorter than `inode.size`. -/
theorem read_file_contents_short (disk : Disk) (inode : Inode) (hsz : inode.size < 2 ^ 32)
    (hshort : 512 * (resolved_blocks disk inode).length < inode.size) :
    read_file_contents disk inode = concat_blocks disk (resolved_blocks disk inode)
      ∧ (read_file_contents disk inode).length = 512 * (resolved_blocks disk inode).length
      ∧ (read_file_contents disk inode).length < inode.size := by
  have h := read_file_contents_eq_resolved disk inode hsz
  rw [List.take_of_length_le (by rw [length_concat_blocks]; omega)] at h
  rw [h, length_concat_blocks]
  exact ⟨rfl, rfl, hshort⟩

/-- C11, as amended, at an inode of size 700 whose second direct pointer is 0. -/
theorem read_file_contents_short_witness :
    resolved_blocks ones_disk (file_inode 700 [20, 0, 22] 0) = [20]
      ∧ read_file_contents ones_disk (file_inode 700 [20, 0, 22] 0)
          = concat_blocks ones_disk (resolved_blocks ones_disk (file_inode 700 [20, 0, 22] 0))
      ∧ (read_file_contents ones_disk (file_inode 700 [20, 0, 22] 0)).length
          = 512 * (resolved_blocks ones_disk (file_inode 700 [20, 0, 22] 0)).length
      ∧ (read_file_contents ones_disk (file_inode 700 [20, 0, 22] 0)).length
          < (file_inode 700 [20, 0, 22] 0).size :=
  ⟨by decide!,
   read_file_contents_short ones_disk (file_inode 700 [20, 0, 22] 0) (by decide) (by decide!)⟩

/-- C11 as stated fails: for an inode of size 700 whose second direct pointer is 0
(and without indirect block), for one of size 7000 without indirect block, and for one
of size 80000 with all 12 + 128 pointers set, `read_file_contents` returns 512, 6144
and at most 71680 bytes: a byte string shorter than `inode.size`, and no failure. -/
theorem read_file_contents_short_counterexample :
    (read_file_contents ones_disk (file_inode 700 [20, 0, 22] 0)).length = 512
      ∧ (read_file_contents ones_disk (file_inode 7000 twelve_blocks 0)).length = 6144
      ∧ (read_file_contents ones_disk (file_inode 80000 twelve_blocks 40)).length < 80000 :=
  ⟨by decide!, by decide!,
   Nat.lt_of_le_of_lt (read_file_contents_length_cap ones_disk (file_inode 80000 twelve_blocks 40))
     (by decide)⟩

/-! ## The records of a directory against the layout of the specification -/

theorem byteAt_c_str (s : Bytes) (i : Nat) : byteAt (c_str s) i = byteAt s i := by
  simp only [byteAt, c_str, List.getD_eq_getElem?_getD]
  by_cases h : i < s.length
  · rw [List.getElem?_append_left h]
  · have h1 : s[i]? = none := List.getElem?_eq_none (by omega)
    rw [h1]
    by_cases h2 : i = s.length
    · subst h2
      simp
    · have h3 : (s ++ [0])[i]? = none :=
        List.getElem?_eq_none (by simp only [List.length_append, List.length_singleton]; omega)
      rw [h3]

theorem le16_c_str (s : Bytes) (i : Nat) : le16 (c_str s) i = le16 s i := by
  simp only [le16, byteAt_c_str]

theorem le32_c_str (s : Bytes) (i : Nat) : le32 (c_str s) i = le32 s i := by
  simp only [le32, byteAt_c_str]

theorem take_drop_eq_map_range (l : Bytes) (a : Nat) :
    ∀ n, a + n ≤ l.length →
      ((l.drop a).take n).map (fun c => c % 256) = (List.range n).map (fun k => byteAt l (a + k)) := by
  intro n
  induction n with
  | zero => intro _; simp
  | succ n ih =>
    intro h
    have hlt : a + n < l.length := by omega
    rw [List.range_succ, List.map_append, ← ih (by omega)]
    have hd : n < (l.drop a).length := by rw [List.length_drop]; omega
    rw [List.take_succ, List.map_append]
    congr 1
    simp [byteAt, List.getD_eq_getElem?_getD, List.getElem?_drop, List.getElem?_eq_getElem hlt]

/-- A record the loop body decodes from the buffer is the record the layout of the
specification gives at that offset of the content. -/
theorem decode_entry_eq_spec_record (content : Bytes) (pos : Nat) (entry : DirEntry)
    (h : decode_entry (c_str content) pos = some entry) : entry = spec_record content pos := by
  unfold decode_entry at h
  split at h
  · dsimp only at h
    split at h
    · rename_i hn
      simp only [Option.some.injEq] at h
      rw [← h, take_drop_eq_map_range _ _ _ hn]
      simp only [spec_record, byteAt_c_str, le16_c_str, le32_c_str]
    · exact absurd h (by simp)
  · exact absurd h (by simp)

theorem scanned_records_eq_spec (content : Bytes) (size : Nat) :
    ∀ (fuel pos : Nat), well_formed_records (c_str content) size fuel pos = true →
      scanned_records (c_str content) size fuel pos
        = (spec_offsets content size fuel pos).map (spec_record content) := by
  intro fuel
  induction fuel with
  | zero => intro pos _; rfl
  | succ f ih =>
    intro pos h
    unfold well_formed_records at h
    unfold scanned_records spec_offsets
    by_cases hp : pos < size
    · rw [if_pos hp] at h ⊢
      rw [if_pos hp]
      cases hd : decode_entry (c_str content) pos with
      | none => rw [hd] at h; exact absurd h (by simp)
      | some entry =>
        rw [hd] at h
        simp only [Bool.and_eq_true, decide_eq_true_eq] at h
        have he := decode_entry_eq_spec_record content pos entry hd
        have hr : entry.rec_len = le16 content (pos + 4) := by rw [he]; rfl
        simp only [List.map_cons]
        rw [ih _ h.2, hr, ← he]
    · rw [if_neg hp, if_neg hp]
      rfl

/-- C19: for a directory inode whose content is well-formed, `get_directory_entries`
returns, in order, the records at the offsets `0, r0, r0 + r1, ...` of the content,
each offset being the previous one advanced by the `rec_len` found there, up to the
first offset not below `inode.size`, without those whose `inode` is 0; each record is
`inode` = 4 bytes at +0, `rec_len` = 2 bytes at +4, `name_len` = 1 byte at +6,
`file_type` = 1 byte at +7 and `name` = the `name_len` bytes at +8, little-endian. -/
theorem get_directory_entries_records (disk : Disk) (dir_inode : Inode)
    (hwf : well_formed_directory disk dir_inode = true) :
    get_directory_entries disk dir_inode
      = .done (((spec_offsets (read_file_contents disk dir_inode) dir_inode.size
            dir_inode.size 0).map (spec_record (read_file_contents disk dir_inode))).filter
          (fun e => e.inode != 0)) := by
  simp only [well_formed_directory, Bool.and_eq_true] at hwf
  obtain ⟨h1, _⟩ := scan_entries_well_formed _ _ _ _ [] hwf.2
  rw [scanned_records_eq_spec _ _ _ _ hwf.2] at h1
  unfold get_directory_entries get_directory_entries_fuel
  simp only [hwf.1.1, Bool.not_true, Bool.false_eq_true, if_false]
  simpa using h1

/-- C19 on the directory `bin` of the sample image: the offsets are 0 and 12, the
record at 12 is a deleted slot and is left out. -/
theorem get_directory_entries_records_witness :
    spec_offsets (read_file_contents sample_disk sample_bin) sample_bin.size sample_bin.size 0
        = [0, 12]
      ∧ (spec_record (read_file_contents sample_disk sample_bin) 12).inode = 0
      ∧ get_directory_entries sample_disk sample_bin = .done [entry_ls]
      ∧ get_directory_entries sample_disk sample_bin
        = .done (((spec_offsets (read_file_contents sample_disk sample_bin) sample_bin.size
              sample_bin.size 0).map (spec_record (read_file_contents sample_disk sample_bin))).filter
            (fun e => e.inode != 0)) :=
  ⟨by decide!, by decide!, by decide!,
   get_directory_entries_records sample_disk sample_bin (by decide!)⟩

/-! ## The invariant of the navigator -/

/-- What a returning call of `change_directory` did, with the lookups behind it. -/
theorem change_directory_step (fs fs1 : ExtFilesystem) (name : Bytes) (ok : Bool)
    (h : change_directory fs name = .done (ok, fs1)) :
    fs1 = fs
      ∨ (∃ cur, 1 < fs.current_path.length
          ∧ replay_path fs.disk fs.superblock (fs.current_path.dropLast.drop 1) ROOT_INODE_NUMBER
              = .done cur
          ∧ fs1 = { fs with current_path := fs.current_path.dropLast, current_dir_inode := cur })
      ∨ (∃ dir_inode entry,
          get_inode fs.disk fs.superblock (toInt32 fs.current_dir_inode) = .done dir_inode
          ∧ find_entry_by_name fs.disk dir_inode name = .done entry
          ∧ entry.inode ≠ 0
          ∧ fs1 = { fs with current_dir_inode := entry.inode
                            current_path := fs.current_path ++ [name] }) := by
  unfold change_directory at h
  split at h
  · split at h
    · rename_i hlen
      obtain ⟨cur, h1, h2⟩ := (Outcome.bind_eq_done _ _ _).1 h
      simp only [Outcome.done.injEq, Prod.mk.injEq] at h2
      exact Or.inr (Or.inl ⟨cur, hlen, h1, h2.2.symm⟩)
    · simp only [Outcome.done.injEq, Prod.mk.injEq] at h
      exact Or.inl h.2.symm
  · split at h
    · simp only [Outcome.done.injEq, Prod.mk.injEq] at h
      exact Or.inl h.2.symm
    · obtain ⟨di, h1, h2⟩ := (Outcome.bind_eq_done _ _ _).1 h
      obtain ⟨e, h3, h4⟩ := (Outcome.bind_eq_done _ _ _).1 h2
      split at h4
      · rename_i hne
        obtain ⟨t, _, h5⟩ := (Outcome.bind_eq_done _ _ _).1 h4
        split at h5
        · simp only [Outcome.done.injEq, Prod.mk.injEq] at h5
          exact Or.inr (Or.inr ⟨di, e, h1, h3, hne, h5.2.symm⟩)
        · simp only [Outcome.done.injEq, Prod.mk.injEq] at h5
          exact Or.inl h5.2.symm
      · simp only [Outcome.done.injEq, Prod.mk.injEq] at h4
        exact Or.inl h4.2.symm

/-- In every reachable state the lookups along every prefix of the path, from the
root inode, return an inode number other than 0. -/
theorem reachable_prefixes (disk : Disk) (fs : ExtFilesystem) (h : Reachable disk fs) :
    ∀ k, ∃ c, replay_path fs.disk fs.superblock ((fs.current_path.drop 1).take k)
        ROOT_INODE_NUMBER = .done c ∧ c ≠ 0 := by
  induction h with
  | init =>
    intro k
    exact ⟨ROOT_INODE_NUMBER, by simp [ExtFilesystem.init, replay_path], by decide⟩
  | step name ok hr hcd ih =>
    rename_i fs0 fs1
    obtain ⟨hpath, hreplay⟩ := reachable_invariant disk fs0 hr
    rcases change_directory_step _ _ name ok hcd with rfl | ⟨cur, hlen, _, rfl⟩
      | ⟨di, e, hg, hf, hne, rfl⟩
    · exact ih
    · intro k
      have hk := ih (min k (fs0.current_path.length - 1 - 1))
      have he : (List.drop 1 fs0.current_path.dropLast).take k
          = (List.drop 1 fs0.current_path).take (min k (fs0.current_path.length - 1 - 1)) := by
        rw [List.dropLast_eq_take, List.drop_take, ← List.take_take]
      simp only [he]
      exact hk
    · intro k
      obtain ⟨p, ps, hp⟩ := List.exists_cons_of_ne_nil hpath
      simp only [hp, List.cons_append, List.drop_succ_cons, List.drop_zero] at ih hreplay ⊢
      by_cases hk : k ≤ ps.length
      · rw [List.take_append_of_le_length hk]
        exact ih k
      · rw [List.take_of_length_le (by simp only [List.length_append, List.length_singleton]; omega),
          replay_path_append, hreplay]
        exact ⟨e.inode, by simp [Outcome.bind, replay_path, hg, hf], hne⟩

/-- C21: in every state reachable from the initial one on a fixed image,
`current_path` is `/` followed by components `c1 ... ck`; looking them up in turn with
`find_entry_by_name` from the root inode 2 returns, after every prefix, an inode number
other than 0, and after all of them `current_dir_inode`, which is therefore not 0; so
`change_directory("..")` returns, and neither the inode it leaves nor any inode its
replay passes through is the sentinel 0. -/
theorem reachable_navigation_invariant (disk : Disk) (fs : ExtFilesystem)
    (h : Reachable disk fs) :
    (∃ cs, fs.current_path = slash :: cs
        ∧ replay_path fs.disk fs.superblock cs ROOT_INODE_NUMBER = .done fs.current_dir_inode
        ∧ ∀ k, ∃ c, replay_path fs.disk fs.superblock (cs.take k) ROOT_INODE_NUMBER = .done c
            ∧ c ≠ 0)
      ∧ fs.current_dir_inode ≠ 0
      ∧ ∃ ok fs1, change_directory fs dotdot = .done (ok, fs1) ∧ fs1.current_dir_inode ≠ 0 := by
  obtain ⟨cs, hcs⟩ := reachable_path_head disk fs h
  obtain ⟨_, hreplay⟩ := reachable_invariant disk fs h
  have hpre := reachable_prefixes disk fs h
  simp only [hcs, List.drop_succ_cons, List.drop_zero] at hreplay hpre
  have hcur : fs.current_dir_inode ≠ 0 := by
    obtain ⟨c, h1, h2⟩ := hpre cs.length
    rw [List.take_length, hreplay] at h1
    simp only [Outcome.done.injEq] at h1
    rw [h1]; exact h2
  refine ⟨⟨cs, hcs, hreplay, hpre⟩, hcur, ?_⟩
  by_cases hlen : fs.current_path.length > 1
  · obtain ⟨c, h1, h2⟩ := hpre (cs.length - 1)
    have he : fs.current_path.dropLast.drop 1 = cs.take (cs.length - 1) := by
      rw [hcs, List.dropLast_eq_take, List.drop_take]
      simp
    refine ⟨true, { fs with current_path := fs.current_path.dropLast, current_dir_inode := c },
      ?_, h2⟩
    simp [change_directory, hlen, he, h1, Outcome.bind]
  · exact ⟨false, fs, by simp [change_directory, hlen], hcur⟩

/-- C21 on the sample image, in the state reached by `change_directory("bin")`: the
path is `/`, `bin`, the current inode is 5, and `change_directory("..")` returns to
inode 2. -/
theorem reachable_navigation_invariant_witness :
    Reachable sample_disk sample_fs_bin
      ∧ sample_fs_bin.current_path = [slash, name_bin]
      ∧ sample_fs_bin.current_dir_inode = 5
      ∧ ((∃ cs, sample_fs_bin.current_path = slash :: cs
            ∧ replay_path sample_fs_bin.disk sample_fs_bin.superblock cs ROOT_INODE_NUMBER
                = .done sample_fs_bin.current_dir_inode
            ∧ ∀ k, ∃ c, replay_path sample_fs_bin.disk sample_fs_bin.superblock (cs.take k)
                ROOT_INODE_NUMBER = .done c ∧ c ≠ 0)
          ∧ sample_fs_bin.current_dir_inode ≠ 0
          ∧ ∃ ok fs1, change_directory sample_fs_bin dotdot = .done (ok, fs1)
              ∧ fs1.current_dir_inode ≠ 0) :=
  have hr : Reachable sample_disk sample_fs_bin :=
    Reachable.step name_bin true Reachable.init
      (change_directory_descend (ExtFilesystem.init sample_disk) name_bin sample_root sample_bin
        entry_bin (by decide) (by decide) (by decide!) (by decide!) (by decide) (by decide!)
        (by decide))
  ⟨hr, rfl, rfl, reachable_navigation_invariant sample_disk sample_fs_bin hr⟩

/-! ## Directories with repeated names -/

/-- A lookup that finds an entry whose target is not a directory: the descent fails. -/
theorem change_directory_not_directory (fs : ExtFilesystem) (name : Bytes)
    (dir_inode target : Inode) (entry : DirEntry) (hdot : name ≠ dot) (hdd : name ≠ dotdot)
    (hdir : get_inode fs.disk fs.superblock (toInt32 fs.current_dir_inode) = .done dir_inode)
    (hfind : find_entry_by_name fs.disk dir_inode name = .done entry)
    (htarget : get_inode fs.disk fs.superblock (toInt32 entry.inode) = .done target)
    (hnot : target.is_directory = false) :
    change_directory fs name = .done (false, fs) := by
  simp only [change_directory, hdot, hdd, if_false, hdir, hfind, Outcome.bind]
  split
  · simp [htarget, hnot, Outcome.bind]
  · rfl

/-- C3 as stated fails: the root of `dup_disk` holds two entries named `x`; the second
has a target (inode 7) without the directory bit, yet `change_directory("x")` takes
the first (inode 5, a directory), reports success and changes the state. -/
theorem change_directory_failed_descend_counterexample :
    get_directory_entries dup_disk sample_root = .done [entry_x_dir, entry_x_file]
      ∧ entry_x_file.name = name_x
      ∧ get_inode dup_disk (ExtFilesystem.init dup_disk).superblock (toInt32 entry_x_file.inode)
          = .done dup_file7
      ∧ dup_file7.is_directory = false
      ∧ change_directory (ExtFilesystem.init dup_disk) name_x = .done (true, dup_fs_x)
      ∧ dup_fs_x.current_dir_inode = 5
      ∧ dup_fs_x.current_path = [slash, name_x] :=
  ⟨by decide!, rfl, by decide!, by decide,
   change_directory_descend (ExtFilesystem.init dup_disk) name_x sample_root dup_dir5
     entry_x_dir (by decide) (by decide) (by decide!) (by decide!) (by decide) (by decide!)
     (by decide),
   rfl, rfl⟩

/-- C15 as stated fails: the directory of inode 5 of `dup_disk`, the current directory
after `change_directory("x")`, holds two entries named `y`; the second has a target
(inode 6) with the directory bit, yet `change_directory("y")` takes the first (inode
7, a file), reports failure and leaves the state as it was. -/
theorem change_directory_descend_success_counterexample :
    dup_fs_x.current_dir_inode = 5
      ∧ get_inode dup_disk dup_fs_x.superblock (toInt32 dup_fs_x.current_dir_inode)
          = .done dup_dir5
      ∧ get_directory_entries dup_disk dup_dir5 = .done [entry_y_file, entry_y_dir]
      ∧ entry_y_dir.name = name_y
      ∧ get_inode dup_disk dup_fs_x.superblock (toInt32 entry_y_dir.inode) = .done dup_dir6
      ∧ dup_dir6.is_directory = true
      ∧ change_directory dup_fs_x name_y = .done (false, dup_fs_x) :=
  ⟨rfl, by decide!, by decide!, rfl, by decide!, by decide,
   change_directory_not_directory dup_fs_x name_y dup_dir5 dup_file7 entry_y_file
     (by decide) (by decide) (by decide!) (by decide!) (by decide!) (by decide)⟩

end ExtBrowser
